import Mathlib

/-!
Verification of the sixafter/semver core: a shallow embedding of the version
parser, the precedence comparator, and the range evaluator, with theorems
about the spec's claims. Strings are modelled as `List Char` (the inputs of
interest are ASCII, where Go's byte indexing and `List Char` agree);
`uint64` is modelled as `Nat` with an explicit `% 2 ^ 64` exactly where the
Go code can overflow (the digit-accumulation loop in
`parseNumericIdentifier`).
-/

namespace Semver

/-- The classified parse errors (package-level error values in the source,
plus the distinct errors produced by `NewPrereleaseVersion` and by
`strconv.ParseUint`). -/
inductive SemverError where
  | emptyVersionString
  | missingVersionElements
  | invalidNumericIdentifier
  | leadingZeroInNumericIdentifier
  | invalidCharacterInIdentifier
  | invalidPrereleaseIdentifier
  | emptyPrereleaseIdentifier
  | emptyBuildMetadata
  | invalidBuildMetadataIdentifier
  | unexpectedCharacter
  | unexpectedEndOfInput
  | prereleaseEmpty
  | numericPrereleaseLeadingZero
  | invalidPrereleaseChars
  | parseUintRange
  deriving DecidableEq, Repr

/-- The uint64 modulus. -/
def U64 : Nat := 2 ^ 64

/-- `PrereleaseVersion`: the struct from prerelease_version.go, with a
boolean discriminant and the two overlapping payload fields (unused field
kept at its Go zero value). -/
structure PrereleaseVersion where
  partString : List Char := []
  partNumeric : Nat := 0
  isNumeric : Bool := false
  deriving DecidableEq, Repr

/-- digit test used throughout the byte-level parser. -/
def isDigitChar (c : Char) : Bool := '0' ≤ c && c ≤ '9'

/-- `containsOnlyNumbers` from prerelease_version.go. -/
def containsOnlyNumbers (s : List Char) : Bool := s.all isDigitChar

/-- `containsOnlyAlphanumeric` from prerelease_version.go (ASCII letters and
digits only; note: no hyphen). -/
def containsOnlyAlphanumeric (s : List Char) : Bool :=
  s.all fun c => ('0' ≤ c && c ≤ '9') || ('A' ≤ c && c ≤ 'Z') || ('a' ≤ c && c ≤ 'z')

/-- Numeric value of one ASCII digit. -/
def digitVal (c : Char) : Nat := c.toNat - '0'.toNat

/-- Value of a big-endian digit string, no overflow (used to state what the
accumulation loops compute). -/
def digitsVal (s : List Char) : Nat := s.foldl (fun n c => n * 10 + digitVal c) 0

/-- Model of `strconv.ParseUint(s, 10, 64)` on a nonempty all-digit string:
the value, unless it does not fit in a uint64. -/
def parseUint64 (s : List Char) : Except SemverError Nat :=
  if digitsVal s < U64 then .ok (digitsVal s) else .error .parseUintRange

/-- `NewPrereleaseVersion` from prerelease_version.go. -/
def NewPrereleaseVersion (s : List Char) : Except SemverError PrereleaseVersion :=
  if s.length = 0 then .error .prereleaseEmpty
  else if containsOnlyNumbers s then
    if 1 < s.length ∧ s.headI = '0' then .error .numericPrereleaseLeadingZero
    else
      match parseUint64 s with
      | .error e => .error e
      | .ok n => .ok { partNumeric := n, isNumeric := true }
  else if containsOnlyAlphanumeric s then .ok { partString := s }
  else .error .invalidPrereleaseChars

/-- `strings.Compare`: lexicographic byte-wise comparison returning -1/0/1
(ASCII inputs, so byte order and `Char` order agree). -/
def stringsCompare : List Char → List Char → Int
  | [], [] => 0
  | [], _ :: _ => -1
  | _ :: _, [] => 1
  | a :: as, b :: bs =>
    if a < b then -1 else if b < a then 1 else stringsCompare as bs

/-- `PrereleaseVersion.Compare`: numeric identifiers sort below textual
ones; numeric pairs compare by value, textual pairs byte-wise. -/
def PrereleaseVersion.Compare (v o : PrereleaseVersion) : Int :=
  if v.isNumeric ≠ o.isNumeric then
    if v.isNumeric then -1 else 1
  else if v.isNumeric then
    if v.partNumeric < o.partNumeric then -1
    else if o.partNumeric < v.partNumeric then 1
    else 0
  else stringsCompare v.partString o.partString

/-- `Version` from the parser source (slices become lists, uint64 becomes
Nat kept below `U64` by the parser). -/
structure Version where
  BuildMetadata : List (List Char) := []
  PreRelease : List PrereleaseVersion := []
  Major : Nat := 0
  Minor : Nat := 0
  Patch : Nat := 0
  deriving DecidableEq, Repr

/-- The element-by-element pre-release loop of `Version.Compare` followed by
its length tie-break: first non-zero element comparison decides, otherwise
the longer sequence is greater. -/
def prereleaseListCompare : List PrereleaseVersion → List PrereleaseVersion → Int
  | [], [] => 0
  | [], _ :: _ => -1
  | _ :: _, [] => 1
  | a :: as, b :: bs =>
    if a.Compare b ≠ 0 then a.Compare b else prereleaseListCompare as bs

/-- `Version.Compare` from the parser source. -/
def Version.Compare (v other : Version) : Int :=
  if v.Major ≠ other.Major then (if other.Major < v.Major then 1 else -1)
  else if v.Minor ≠ other.Minor then (if other.Minor < v.Minor then 1 else -1)
  else if v.Patch ≠ other.Patch then (if other.Patch < v.Patch then 1 else -1)
  else if v.PreRelease.length = 0 ∧ other.PreRelease.length = 0 then 0
  else if v.PreRelease.length = 0 ∧ 0 < other.PreRelease.length then 1
  else if 0 < v.PreRelease.length ∧ other.PreRelease.length = 0 then -1
  else prereleaseListCompare v.PreRelease other.PreRelease

/-- `Version.Equal`. -/
def Version.Equal (v other : Version) : Bool := v.Compare other == 0

/-- `Version.LessThan`. -/
def Version.LessThan (v other : Version) : Bool := v.Compare other == -1

/-- `Version.LessThanOrEqual`. -/
def Version.LessThanOrEqual (v other : Version) : Bool := decide (v.Compare other ≤ 0)

/-- `Version.GreaterThan`. -/
def Version.GreaterThan (v other : Version) : Bool := v.Compare other == 1

/-- `Version.GreaterThanOrEqual`. -/
def Version.GreaterThanOrEqual (v other : Version) : Bool := decide (0 ≤ v.Compare other)

/-- `isAllowedInIdentifier` from the parser: digits, ASCII letters, hyphen. -/
def isAllowedInIdentifier (ch : Char) : Bool :=
  ('0' ≤ ch && ch ≤ '9') || ('A' ≤ ch && ch ≤ 'Z') || ('a' ≤ ch && ch ≤ 'z') || ch = '-'

/-- `isNumeric` from the parser (same test as `containsOnlyNumbers`). -/
def isNumeric (s : List Char) : Bool :=
  s.all fun c => !(c < '0' || '9' < c)

/-- `isValidPrereleaseIdentifier`: nonempty, allowed characters, and under
strict adherence no leading zero on an all-digit identifier. -/
def isValidPrereleaseIdentifier (strict : Bool) (s : List Char) : Bool :=
  if s.length = 0 then false
  else if ¬ s.all isAllowedInIdentifier then false
  else if strict = true ∧ isNumeric s = true ∧ s.headI = '0' ∧ 1 < s.length then false
  else true

/-- `isValidBuildIdentifier`: nonempty and allowed characters. -/
def isValidBuildIdentifier (s : List Char) : Bool :=
  if s.length = 0 then false
  else s.all isAllowedInIdentifier

/-- `parseNumericIdentifier`: at end of input it fails; a leading `0`
followed by a digit fails; a leading `0` alone parses as 0; otherwise the
digit run is accumulated with uint64 wrap-around (`n = n*10 + d` on uint64,
modelled by a `% 2 ^ 64` per step), and an empty run fails. Returns the
value and the unconsumed remainder. -/
def parseNumericIdentifier : List Char → Except SemverError (Nat × List Char)
  | [] => .error .unexpectedEndOfInput
  | c :: rest =>
    if c = '0' then
      match rest with
      | [] => .ok (0, [])
      | d :: _ => if isDigitChar d then .error .leadingZeroInNumericIdentifier else .ok (0, rest)
    else if isDigitChar c then
      .ok ((c :: rest.takeWhile isDigitChar).foldl (fun n d => (n * 10 + digitVal d) % U64) 0,
        rest.dropWhile isDigitChar)
    else .error .invalidNumericIdentifier

/-- End-of-part action of the `parsePrerelease` loop: reject an empty or
invalid identifier, otherwise append the constructed component. -/
def prereleaseFinishPart (strict : Bool) (cur : List Char) (acc : List PrereleaseVersion) :
    Except SemverError (List PrereleaseVersion) :=
  if cur.length = 0 then .error .emptyPrereleaseIdentifier
  else if ¬ isValidPrereleaseIdentifier strict cur then .error .invalidPrereleaseIdentifier
  else
    match NewPrereleaseVersion cur with
    | .error e => .error e
    | .ok comp => .ok (acc ++ [comp])

/-- The character loop of `parsePrerelease`: split on dots, finishing each
part; any disallowed or non-ASCII character aborts. `cur` is the slice
`s[start:i]` accumulated so far. -/
def parsePrereleaseLoop (strict : Bool) :
    List Char → List Char → List PrereleaseVersion → Except SemverError (List PrereleaseVersion)
  | [], cur, acc => prereleaseFinishPart strict cur acc
  | ch :: rest, cur, acc =>
    if ch = '.' then
      match prereleaseFinishPart strict cur acc with
      | .error e => .error e
      | .ok acc2 => parsePrereleaseLoop strict rest [] acc2
    else if 127 < ch.toNat ∨ ¬ isAllowedInIdentifier ch then .error .invalidCharacterInIdentifier
    else parsePrereleaseLoop strict rest (cur ++ [ch]) acc

/-- `parsePrerelease`. -/
def parsePrerelease (strict : Bool) (s : List Char) : Except SemverError (List PrereleaseVersion) :=
  if s.length = 0 then .error .emptyPrereleaseIdentifier
  else parsePrereleaseLoop strict s [] []

/-- End-of-part action of the `parseBuildMetadata` loop. -/
def buildFinishPart (cur : List Char) (acc : List (List Char)) :
    Except SemverError (List (List Char)) :=
  if cur.length = 0 then .error .emptyBuildMetadata
  else if ¬ isValidBuildIdentifier cur then .error .invalidBuildMetadataIdentifier
  else .ok (acc ++ [cur])

/-- The character loop of `parseBuildMetadata`. -/
def parseBuildMetadataLoop :
    List Char → List Char → List (List Char) → Except SemverError (List (List Char))
  | [], cur, acc => buildFinishPart cur acc
  | ch :: rest, cur, acc =>
    if ch = '.' then
      match buildFinishPart cur acc with
      | .error e => .error e
      | .ok acc2 => parseBuildMetadataLoop rest [] acc2
    else if 127 < ch.toNat ∨ ¬ isAllowedInIdentifier ch then .error .invalidCharacterInIdentifier
    else parseBuildMetadataLoop rest (cur ++ [ch]) acc

/-- `parseBuildMetadata`. -/
def parseBuildMetadata (s : List Char) : Except SemverError (List (List Char)) :=
  if s.length = 0 then .error .emptyBuildMetadata
  else parseBuildMetadataLoop s [] []

/-- The scan inside `parsePreReleaseAndBuildMetadata`: advance to the first
`+` or the end of input, rejecting bytes above 127; returns the scanned
segment and the remainder. -/
def scanPrereleaseSegment : List Char → Except SemverError (List Char × List Char)
  | [] => .ok ([], [])
  | ch :: rest =>
    if ch = '+' then .ok ([], ch :: rest)
    else if 127 < ch.toNat then .error .invalidCharacterInIdentifier
    else
      match scanPrereleaseSegment rest with
      | .error e => .error e
      | .ok (seg, r) => .ok (ch :: seg, r)

/-- The second half of `parsePreReleaseAndBuildMetadata`: if the next
character is `+`, the rest of the input is build metadata (consuming
everything); otherwise nothing more is consumed. -/
def buildTail (pr : List PrereleaseVersion) (r : List Char) :
    Except SemverError (List PrereleaseVersion × List (List Char) × List Char) :=
  if r ≠ [] ∧ r.headI = '+' then
    match parseBuildMetadata r.tail with
    | .error e => .error e
    | .ok bm => .ok (pr, bm, [])
  else .ok (pr, [], r)

/-- `parsePreReleaseAndBuildMetadata`, on the input remaining after the
patch number: if the next character is `-`, scan up to `+` or end and parse
the pre-release segment; then, if the next character is `+`, parse the rest
as build metadata. Returns the two parsed lists and the still-unconsumed
remainder. -/
def parsePreReleaseAndBuildMetadata (strict : Bool) (s : List Char) :
    Except SemverError (List PrereleaseVersion × List (List Char) × List Char) :=
  if s ≠ [] ∧ s.headI = '-' then
    match scanPrereleaseSegment s.tail with
    | .error e => .error e
    | .ok (seg, r) =>
      match parsePrerelease strict seg with
      | .error e => .error e
      | .ok pr => buildTail pr r
  else buildTail [] s

/-- `parser.Parse` under a strict-adherence flag: empty input fails; major,
`.`, minor, `.`, patch; then the optional pre-release and build-metadata
tail when input remains; leftover input fails. -/
def parse (strict : Bool) (version : List Char) : Except SemverError Version :=
  if version.length = 0 then .error .emptyVersionString
  else
    match parseNumericIdentifier version with
    | .error e => .error e
    | .ok (major, r1) =>
      if r1 ≠ [] ∧ r1.headI = '.' then
        match parseNumericIdentifier r1.tail with
        | .error e => .error e
        | .ok (minor, r2) =>
          if r2 ≠ [] ∧ r2.headI = '.' then
            match parseNumericIdentifier r2.tail with
            | .error e => .error e
            | .ok (patch, r3) =>
              if r3.length = 0 then .ok { Major := major, Minor := minor, Patch := patch }
              else
                match parsePreReleaseAndBuildMetadata strict r3 with
                | .error e => .error e
                | .ok (pr, bm, leftover) =>
                  if leftover.length ≠ 0 then .error .unexpectedCharacter
                  else .ok { Major := major, Minor := minor, Patch := patch,
                             PreRelease := pr, BuildMetadata := bm }
          else .error .missingVersionElements
      else .error .missingVersionElements

/-- The ASCII digit character for a value below ten. -/
def digitChar (d : Nat) : Char := Char.ofNat (48 + d)

/-- Decimal rendering loop of `strconv.FormatUint` (fuel-driven so the
definition is structural; the fuel `n + 1` always suffices). -/
def natToCharsAux : Nat → Nat → List Char → List Char
  | 0, _, acc => acc
  | fuel + 1, n, acc =>
    if n < 10 then digitChar n :: acc
    else natToCharsAux fuel (n / 10) (digitChar (n % 10) :: acc)

/-- `strconv.FormatUint(n, 10)`. -/
def natToChars (n : Nat) : List Char := natToCharsAux (n + 1) n []

/-- `PrereleaseVersion.String`. -/
def prString (p : PrereleaseVersion) : List Char :=
  if p.isNumeric then natToChars p.partNumeric else p.partString

/-- Dot-joining as done by the `String` rendering loops (a separator before
every element but the first). -/
def joinDot : List (List Char) → List Char
  | [] => []
  | [p] => p
  | p :: q :: rest => p ++ '.' :: joinDot (q :: rest)

/-- `Version.String`: major.minor.patch, then `-` and the dot-joined
pre-release identifiers when present, then `+` and the dot-joined build
metadata when present. -/
def vString (v : Version) : List Char :=
  natToChars v.Major ++ '.' :: natToChars v.Minor ++ '.' :: natToChars v.Patch
    ++ (if 0 < v.PreRelease.length then '-' :: joinDot (v.PreRelease.map prString) else [])
    ++ (if 0 < v.BuildMetadata.length then '+' :: joinDot v.BuildMetadata else [])

/-- The six comparison operators of range.go. The Go `Operator` is a string
type, but `ParseRange` only ever constructs these six values (the
`default: return false` arm of `Requirement.Contains` is unreachable from
parsed ranges). -/
inductive Operator where
  | opEq
  | opGt
  | opGte
  | opLt
  | opLte
  | opNeq
  deriving DecidableEq, Repr

/-- `Requirement`: one operator and one target version. -/
structure Requirement where
  Op : Operator
  Ver : Version
  deriving DecidableEq, Repr

/-- `VersionRange`: OR-combined sequence of AND-groups. -/
structure VersionRange where
  Requirements : List (List Requirement)
  deriving DecidableEq, Repr

/-- `Requirement.Contains`: dispatch on the operator to the derived
comparison predicates. -/
def Requirement.Contains (r : Requirement) (v : Version) : Bool :=
  match r.Op with
  | .opEq => v.Equal r.Ver
  | .opGt => v.GreaterThan r.Ver
  | .opGte => v.GreaterThanOrEqual r.Ver
  | .opLt => v.LessThan r.Ver
  | .opLte => v.LessThanOrEqual r.Ver
  | .opNeq => !(v.Equal r.Ver)

/-- `VersionRange.Contains`: some AND-group whose requirements all hold
(`List.any`/`List.all` short-circuit exactly like the Go loops). -/
def VersionRange.Contains (vr : VersionRange) (v : Version) : Bool :=
  vr.Requirements.any fun andReqs => andReqs.all fun req => req.Contains v

/-- `VersionRange.OR`: concatenation of the two outer group sequences. -/
def VersionRange.OR (vr other : VersionRange) : VersionRange :=
  ⟨vr.Requirements ++ other.Requirements⟩

/-- The AND semantics stated by spec section 4.4 and by the Go function's
own doc comment (a range matching exactly the versions satisfying both
operands): the cross-product of AND-groups. The loop in range.go is meant
to compute this; `sliceAND` below models what it actually does at the Go
slice level, and the two disagree (claim C7). -/
def VersionRange.crossAND (vr other : VersionRange) : VersionRange :=
  ⟨(vr.Requirements.map (fun g1 => other.Requirements.map (fun g2 => g1 ++ g2))).join⟩

/-- A Go slice of requirements as the runtime represents it: an index into
the heap of backing arrays plus a length. Every slice flowing through
range.go's AND has offset zero, so offsets are omitted. A backing array's
list length is its capacity. -/
structure GoSlice where
  arr : Nat
  len : Nat
  deriving DecidableEq, Repr

/-- The visible elements of a slice: the first `len` cells of its backing
array. -/
def readSlice (h : List (List Requirement)) (s : GoSlice) : List Requirement :=
  (h.getD s.arr []).take s.len

/-- Go's append of requirement values onto a slice: when the backing array
has spare capacity the new elements are written in place, visible through
every other slice over the same array; otherwise a fresh array is
allocated. -/
def goAppend (h : List (List Requirement)) (s : GoSlice) (xs : List Requirement) :
    List (List Requirement) × GoSlice :=
  let arr := h.getD s.arr []
  if s.len + xs.length ≤ arr.length then
    (h.set s.arr (arr.take s.len ++ xs ++ arr.drop (s.len + xs.length)),
      { arr := s.arr, len := s.len + xs.length })
  else
    (h ++ [arr.take s.len ++ xs], { arr := h.length, len := s.len + xs.length })

/-- The doubly nested loop of `VersionRange.AND` at the Go slice level: for
every pair of groups, combinedReqs is the append of reqs2's elements onto
the reqs1 slice, and each result is appended to the accumulator. -/
def sliceAND (h : List (List Requirement)) (gs1 gs2 : List GoSlice) :
    List (List Requirement) × List GoSlice :=
  gs1.foldl
    (fun acc reqs1 =>
      gs2.foldl
        (fun acc2 reqs2 =>
          let hc := goAppend acc2.1 reqs1 (readSlice acc2.1 reqs2)
          (hc.1, acc2.2 ++ [hc.2]))
        acc)
    (h, [])

/-- Reading a slice-level range back into value-level groups. -/
def readRange (h : List (List Requirement)) (gs : List GoSlice) : VersionRange :=
  ⟨gs.map (readSlice h)⟩

/-- ASCII white space as recognized by `strings.Fields`, `strings.Split`
and `strings.TrimSpace` (the inputs of interest contain no non-ASCII
space). -/
def isSpaceChar (c : Char) : Bool :=
  c = ' ' || c = '\t' || c = '\n' || c = '\x0b' || c = '\x0c' || c = '\r'

/-- `strings.Split(r, "||")`: scan left to right, cutting at each
non-overlapping occurrence of two bars; `cur` holds the current piece in
reverse. -/
def splitOnOrOr : List Char → List Char → List (List Char)
  | cur, [] => [cur.reverse]
  | cur, '|' :: '|' :: rest => cur.reverse :: splitOnOrOr [] rest
  | cur, c :: rest => splitOnOrOr (c :: cur) rest

/-- `strings.TrimSpace`. -/
def trimSpace (s : List Char) : List Char :=
  ((s.dropWhile isSpaceChar).reverse.dropWhile isSpaceChar).reverse

/-- The field-splitting loop of `strings.Fields`. -/
def fieldsAux : List Char → List Char → List (List Char)
  | cur, [] => if cur.isEmpty then [] else [cur.reverse]
  | cur, c :: rest =>
    if isSpaceChar c then
      if cur.isEmpty then fieldsAux [] rest else cur.reverse :: fieldsAux [] rest
    else fieldsAux (c :: cur) rest

/-- `strings.Fields`: maximal runs of non-space characters. -/
def fields (s : List Char) : List (List Char) := fieldsAux [] s

/-- The version character class of `rangeRegex`. -/
def isRangeVersionChar (c : Char) : Bool :=
  ('0' ≤ c && c ≤ '9') || ('A' ≤ c && c ≤ 'Z') || ('a' ≤ c && c ≤ 'z') ||
    c = '.' || c = '-' || c = '+'

/-- Drop an expected leading character sequence, or fail. -/
def dropLeading : List Char → List Char → Option (List Char)
  | [], rest => some rest
  | _ :: _, [] => none
  | p :: ps, c :: rest => if c = p then dropLeading ps rest else none

/-- The operator alternatives of `rangeRegex`, in the pattern's preference
order. -/
def rangeOps : List (List Char × Operator) :=
  [(['>', '='], .opGte), (['<', '='], .opLte), (['>'], .opGt),
   (['<'], .opLt), (['='], .opEq), (['!', '='], .opNeq)]

/-- Model of matching one whitespace-free token against
`rangeRegex` (anchored `(>=|<=|>|<|=|!=)?` then one or more version-class
characters; the optional group prefers the alternatives in order, then
absence, which Go maps to `OpEq`). Returns the operator and the version
substring. -/
def matchRangeToken (tok : List Char) : Option (Operator × List Char) :=
  match rangeOps.findSome? (fun cand =>
    match dropLeading cand.1 tok with
    | some rest =>
      if rest.length ≠ 0 ∧ rest.all isRangeVersionChar then some (cand.2, rest) else none
    | none => none) with
  | some r => some r
  | none =>
    if tok.length ≠ 0 ∧ tok.all isRangeVersionChar then some (.opEq, tok) else none

/-- The two error kinds of `ParseRange`. -/
inductive RangeError where
  | invalidRangeToken
  | invalidVersionInRange
  deriving DecidableEq, Repr

/-- The inner token loop of `ParseRange`: each token must match the regex
and its version part must parse (with the default, strict parser). -/
def parseRangeGroup : List (List Char) → Except RangeError (List Requirement)
  | [] => .ok []
  | tok :: rest =>
    match matchRangeToken tok with
    | none => .error .invalidRangeToken
    | some (op, verStr) =>
      match parse true verStr with
      | .error _ => .error .invalidVersionInRange
      | .ok ver =>
        match parseRangeGroup rest with
        | .error e => .error e
        | .ok reqs => .ok ({ Op := op, Ver := ver } :: reqs)

/-- The outer OR-part loop of `ParseRange`: trim each part, skip empty
parts, and tokenize the rest with `fields`. -/
def parseRangeGroups : List (List Char) → Except RangeError (List (List Requirement))
  | [] => .ok []
  | part :: rest =>
    if (trimSpace part).length = 0 then parseRangeGroups rest
    else
      match parseRangeGroup (fields (trimSpace part)) with
      | .error e => .error e
      | .ok reqs =>
        match parseRangeGroups rest with
        | .error e => .error e
        | .ok groups => .ok (reqs :: groups)

/-- `ParseRange`. -/
def ParseRange (r : List Char) : Except RangeError VersionRange :=
  match parseRangeGroups (splitOnOrOr [] r) with
  | .error e => .error e
  | .ok groups => .ok ⟨groups⟩

/-! ### Comparator algebra

The laws a three-valued comparator must satisfy for `compare` to induce a
strict total order, proved level by level (characters, strings, prerelease
identifiers, identifier sequences, versions). -/

/-- The four laws of a lawful three-valued comparator. -/
structure LawfulCmp {α : Type} (f : α → α → Int) : Prop where
  vals : ∀ a b, f a b = -1 ∨ f a b = 0 ∨ f a b = 1
  flip : ∀ a b, f b a = -f a b
  zero_congr : ∀ a b c, f a b = 0 → f a c = f b c
  neg_trans : ∀ a b c, f a b = -1 → f b c = -1 → f a c = -1

theorem LawfulCmp.zero_congr_right {α : Type} {f : α → α → Int} (h : LawfulCmp f)
    {a b : α} (c : α) (hab : f a b = 0) : f c a = f c b := by
  have h1 := h.flip a c
  have h2 := h.flip b c
  rw [h1, h2, h.zero_congr a b c hab]

theorem LawfulCmp.le_total_trans {α : Type} {f : α → α → Int} (h : LawfulCmp f)
    (a b c : α) (hab : f a b ≤ 0) (hbc : f b c ≤ 0) : f a c ≤ 0 := by
  rcases h.vals a b with h1 | h1 | h1
  · rcases h.vals b c with h2 | h2 | h2
    · have h3 := h.neg_trans a b c h1 h2; omega
    · have h3 := h.zero_congr_right a h2; omega
    · omega
  · have h3 := h.zero_congr a b c h1; omega
  · omega

theorem LawfulCmp.le_antisymm' {α : Type} {f : α → α → Int} (h : LawfulCmp f)
    (a b : α) (hab : f a b ≤ 0) (hba : f b a ≤ 0) : f a b = 0 := by
  have := h.flip a b
  rcases h.vals a b with h1 | h1 | h1 <;> omega

/-- The sequencing of two comparators: the first one decides unless it
ties. -/
def thenCmp (c d : Int) : Int := if c = 0 then d else c

theorem LawfulCmp.thenCmp_lawful {α : Type} {f g : α → α → Int}
    (hf : LawfulCmp f) (hg : LawfulCmp g) :
    LawfulCmp (fun a b => thenCmp (f a b) (g a b)) := by
  constructor
  · intro a b
    by_cases h : f a b = 0
    · simpa [thenCmp, h] using hg.vals a b
    · simpa [thenCmp, h] using hf.vals a b
  · intro a b
    by_cases h : f a b = 0
    · have h2 : f b a = 0 := by rw [hf.flip a b, h]; rfl
      simpa [thenCmp, h, h2] using hg.flip a b
    · have h2 : f b a ≠ 0 := by rw [hf.flip a b]; omega
      simpa [thenCmp, h, h2] using hf.flip a b
  · intro a b c hab
    by_cases h : f a b = 0
    · simp only [thenCmp, h, if_true] at hab
      simp only [thenCmp, hf.zero_congr a b c h, hg.zero_congr a b c hab]
    · simp only [thenCmp, if_neg h] at hab
      exact absurd hab h
  · intro a b c hab hbc
    by_cases h1 : f a b = 0
    · simp only [thenCmp, h1, if_true] at hab
      by_cases h2 : f b c = 0
      · simp only [thenCmp, h2, if_true] at hbc
        have hfc : f a c = 0 := by rw [hf.zero_congr a b c h1]; exact h2
        simp [thenCmp, hfc, hg.neg_trans a b c hab hbc]
      · simp only [thenCmp, h2, if_false] at hbc
        have hfc : f a c = -1 := by rw [hf.zero_congr a b c h1]; omega
        simp [thenCmp, hfc]
    · simp only [thenCmp, h1, if_false] at hab
      by_cases h2 : f b c = 0
      · have hfc : f a c = -1 := by rw [← hf.zero_congr_right a h2]; omega
        simp [thenCmp, hfc]
      · simp only [thenCmp, h2, if_false] at hbc
        have hfc := hf.neg_trans a b c hab hbc
        simp [thenCmp, hfc]

theorem LawfulCmp.comap {α β : Type} {f : α → α → Int} (h : LawfulCmp f) (k : β → α) :
    LawfulCmp (fun a b => f (k a) (k b)) := by
  constructor
  · intro a b; exact h.vals (k a) (k b)
  · intro a b; exact h.flip (k a) (k b)
  · intro a b c hab; exact h.zero_congr (k a) (k b) (k c) hab
  · intro a b c hab hbc; exact h.neg_trans (k a) (k b) (k c) hab hbc

/-- The numeric component comparison embedded in `Version.Compare`. -/
def natCmp (x y : Nat) : Int := if x < y then -1 else if y < x then 1 else 0

theorem natCmp_lawful : LawfulCmp natCmp := by
  constructor
  · intro a b; unfold natCmp; split_ifs <;> omega
  · intro a b; unfold natCmp; split_ifs <;> omega
  · intro a b c hab
    have : a = b := by unfold natCmp at hab; split_ifs at hab <;> omega
    rw [this]
  · intro a b c hab hbc
    unfold natCmp at *; split_ifs at * <;> omega

theorem stringsCompare_lawful : LawfulCmp stringsCompare := by
  constructor
  · intro a b
    induction a generalizing b with
    | nil => cases b <;> simp [stringsCompare]
    | cons x xs ih =>
      cases b with
      | nil => simp [stringsCompare]
      | cons y ys =>
        simp only [stringsCompare]
        split_ifs <;> simp [ih ys]
  · intro a b
    induction a generalizing b with
    | nil => cases b <;> simp [stringsCompare]
    | cons x xs ih =>
      cases b with
      | nil => simp [stringsCompare]
      | cons y ys =>
        simp only [stringsCompare]
        rcases lt_trichotomy x y with h | h | h
        · simp [h, not_lt_of_gt h]
        · simp [h, lt_irrefl, ih ys]
        · simp [h, not_lt_of_gt h]
  · intro a b c hab
    have hab2 : a = b := by
      induction a generalizing b with
      | nil => cases b with
        | nil => rfl
        | cons y ys => simp [stringsCompare] at hab
      | cons x xs ih =>
        cases b with
        | nil => simp [stringsCompare] at hab
        | cons y ys =>
          by_cases h1 : x < y
          · simp [stringsCompare, h1] at hab
          · by_cases h2 : y < x
            · simp [stringsCompare, h1, h2] at hab
            · have hxy : x = y := le_antisymm (not_lt.mp h2) (not_lt.mp h1)
              have hab2 : stringsCompare xs ys = 0 := by
                simpa [stringsCompare, h1, h2] using hab
              rw [hxy, ih ys hab2]
    rw [hab2]
  · intro a b c hab hbc
    induction a generalizing b c with
    | nil =>
      cases b with
      | nil => simp [stringsCompare] at hab
      | cons y ys =>
        cases c with
        | nil => simp [stringsCompare] at hbc
        | cons z zs => simp [stringsCompare]
    | cons x xs ih =>
      cases b with
      | nil => simp [stringsCompare] at hab
      | cons y ys =>
        cases c with
        | nil => simp [stringsCompare] at hbc
        | cons z zs =>
          by_cases h3 : y < z
          · by_cases h1 : x < y
            · simp [stringsCompare, lt_trans h1 h3]
            · by_cases h2 : y < x
              · exfalso; simp [stringsCompare, h1, h2] at hab
              · have hxy : x = y := le_antisymm (not_lt.mp h2) (not_lt.mp h1)
                simp [stringsCompare, hxy ▸ h3]
          · by_cases h4 : z < y
            · exfalso; simp [stringsCompare, h3, h4] at hbc
            · have hyz : y = z := le_antisymm (not_lt.mp h4) (not_lt.mp h3)
              have hbc2 : stringsCompare ys zs = -1 := by
                simpa [stringsCompare, h3, h4] using hbc
              by_cases h1 : x < y
              · simp [stringsCompare, hyz ▸ h1]
              · by_cases h2 : y < x
                · exfalso; simp [stringsCompare, h1, h2] at hab
                · have hxy : x = y := le_antisymm (not_lt.mp h2) (not_lt.mp h1)
                  have hab2 : stringsCompare xs ys = -1 := by
                    simpa [stringsCompare, h1, h2] using hab
                  have hxz : x = z := hxy.trans hyz
                  simp [stringsCompare, hxz, lt_irrefl, ih ys zs hab2 hbc2]

theorem pcmp_num_num {a b : PrereleaseVersion} (ha : a.isNumeric = true)
    (hb : b.isNumeric = true) : a.Compare b = natCmp a.partNumeric b.partNumeric := by
  simp [PrereleaseVersion.Compare, natCmp, ha, hb]

theorem pcmp_txt_txt {a b : PrereleaseVersion} (ha : a.isNumeric = false)
    (hb : b.isNumeric = false) : a.Compare b = stringsCompare a.partString b.partString := by
  simp [PrereleaseVersion.Compare, ha, hb]

theorem pcmp_num_txt {a b : PrereleaseVersion} (ha : a.isNumeric = true)
    (hb : b.isNumeric = false) : a.Compare b = -1 := by
  simp [PrereleaseVersion.Compare, ha, hb]

theorem pcmp_txt_num {a b : PrereleaseVersion} (ha : a.isNumeric = false)
    (hb : b.isNumeric = true) : a.Compare b = 1 := by
  simp [PrereleaseVersion.Compare, ha, hb]

theorem prereleaseCompare_lawful : LawfulCmp PrereleaseVersion.Compare := by
  constructor
  · intro a b
    cases ha : a.isNumeric <;> cases hb : b.isNumeric
    · rw [pcmp_txt_txt ha hb]; exact stringsCompare_lawful.vals _ _
    · rw [pcmp_txt_num ha hb]; decide
    · rw [pcmp_num_txt ha hb]; decide
    · rw [pcmp_num_num ha hb]; exact natCmp_lawful.vals _ _
  · intro a b
    cases ha : a.isNumeric <;> cases hb : b.isNumeric
    · rw [pcmp_txt_txt ha hb, pcmp_txt_txt hb ha]; exact stringsCompare_lawful.flip _ _
    · rw [pcmp_txt_num ha hb, pcmp_num_txt hb ha]
    · rw [pcmp_num_txt ha hb, pcmp_txt_num hb ha]; decide
    · rw [pcmp_num_num ha hb, pcmp_num_num hb ha]; exact natCmp_lawful.flip _ _
  · intro a b c hab
    cases ha : a.isNumeric <;> cases hb : b.isNumeric
    · rw [pcmp_txt_txt ha hb] at hab
      cases hc : c.isNumeric
      · rw [pcmp_txt_txt ha hc, pcmp_txt_txt hb hc]
        exact stringsCompare_lawful.zero_congr _ _ _ hab
      · rw [pcmp_txt_num ha hc, pcmp_txt_num hb hc]
    · rw [pcmp_txt_num ha hb] at hab; omega
    · rw [pcmp_num_txt ha hb] at hab; omega
    · rw [pcmp_num_num ha hb] at hab
      cases hc : c.isNumeric
      · rw [pcmp_num_txt ha hc, pcmp_num_txt hb hc]
      · rw [pcmp_num_num ha hc, pcmp_num_num hb hc]
        exact natCmp_lawful.zero_congr _ _ _ hab
  · intro a b c hab hbc
    cases ha : a.isNumeric <;> cases hb : b.isNumeric <;> cases hc : c.isNumeric
    · rw [pcmp_txt_txt ha hb] at hab
      rw [pcmp_txt_txt hb hc] at hbc
      rw [pcmp_txt_txt ha hc]
      exact stringsCompare_lawful.neg_trans _ _ _ hab hbc
    · rw [pcmp_txt_txt ha hb] at hab
      rw [pcmp_txt_num hb hc] at hbc
      omega
    · rw [pcmp_txt_num ha hb] at hab; omega
    · rw [pcmp_txt_num ha hb] at hab; omega
    · rw [pcmp_num_txt ha hb] at hab
      rw [pcmp_txt_txt hb hc] at hbc
      rw [pcmp_num_txt ha hc]
    · rw [pcmp_txt_num hb hc] at hbc
      omega
    · rw [pcmp_num_num ha hb] at hab
      rw [pcmp_num_txt hb hc] at hbc
      rw [pcmp_num_txt ha hc]
    · rw [pcmp_num_num ha hb] at hab
      rw [pcmp_num_num hb hc] at hbc
      rw [pcmp_num_num ha hc]
      exact natCmp_lawful.neg_trans _ _ _ hab hbc

theorem prereleaseListCompare_lawful : LawfulCmp prereleaseListCompare := by
  constructor
  · intro a b
    induction a generalizing b with
    | nil => cases b <;> simp [prereleaseListCompare]
    | cons x xs ih =>
      cases b with
      | nil => simp [prereleaseListCompare]
      | cons y ys =>
        simp only [prereleaseListCompare]
        split_ifs with h
        · exact prereleaseCompare_lawful.vals x y
        · exact ih ys
  · intro a b
    induction a generalizing b with
    | nil => cases b <;> simp [prereleaseListCompare]
    | cons x xs ih =>
      cases b with
      | nil => simp [prereleaseListCompare]
      | cons y ys =>
        have hf := prereleaseCompare_lawful.flip x y
        by_cases h : x.Compare y = 0
        · have h2 : y.Compare x = 0 := by omega
          simp [prereleaseListCompare, h, h2, ih ys]
        · have h2 : y.Compare x ≠ 0 := by omega
          simp [prereleaseListCompare, h, h2, hf]
  · intro a b c hab
    induction a generalizing b c with
    | nil =>
      cases b with
      | nil => rfl
      | cons y ys => simp [prereleaseListCompare] at hab
    | cons x xs ih =>
      cases b with
      | nil => simp [prereleaseListCompare] at hab
      | cons y ys =>
        by_cases h : x.Compare y = 0
        · have hab2 : prereleaseListCompare xs ys = 0 := by
            simpa [prereleaseListCompare, h] using hab
          cases c with
          | nil => simp [prereleaseListCompare]
          | cons z zs =>
            have hxz : x.Compare z = y.Compare z := prereleaseCompare_lawful.zero_congr x y z h
            by_cases h2 : y.Compare z = 0
            · simp [prereleaseListCompare, hxz, h2, ih ys zs hab2]
            · simp [prereleaseListCompare, hxz, h2]
        · simp [prereleaseListCompare, h] at hab
  · intro a b c hab hbc
    induction a generalizing b c with
    | nil =>
      cases b with
      | nil => simp [prereleaseListCompare] at hab
      | cons y ys =>
        cases c with
        | nil => simp [prereleaseListCompare] at hbc
        | cons z zs => simp [prereleaseListCompare]
    | cons x xs ih =>
      cases b with
      | nil => simp [prereleaseListCompare] at hab
      | cons y ys =>
        cases c with
        | nil => simp [prereleaseListCompare] at hbc
        | cons z zs =>
          by_cases h1 : x.Compare y = 0
          · have hab2 : prereleaseListCompare xs ys = -1 := by
              simpa [prereleaseListCompare, h1] using hab
            have hxz : x.Compare z = y.Compare z := prereleaseCompare_lawful.zero_congr x y z h1
            by_cases h2 : y.Compare z = 0
            · have hbc2 : prereleaseListCompare ys zs = -1 := by
                simpa [prereleaseListCompare, h2] using hbc
              simp [prereleaseListCompare, hxz, h2, ih ys zs hab2 hbc2]
            · have hbc2 : y.Compare z = -1 := by
                simpa [prereleaseListCompare, h2] using hbc
              simp [prereleaseListCompare, hxz, hbc2]
          · have hab2 : x.Compare y = -1 := by
              simpa [prereleaseListCompare, h1] using hab
            by_cases h2 : y.Compare z = 0
            · have hxz : x.Compare y = x.Compare z :=
                prereleaseCompare_lawful.zero_congr_right x h2
              simp [prereleaseListCompare, ← hxz, hab2]
            · have hbc2 : y.Compare z = -1 := by
                simpa [prereleaseListCompare, h2] using hbc
              have hxz := prereleaseCompare_lawful.neg_trans x y z hab2 hbc2
              simp [prereleaseListCompare, hxz]

/-- The pre-release tail of `Version.Compare` (steps 2-5 in the spec): an
empty identifier sequence outranks any nonempty one; two nonempty ones
compare element-wise with the length tie-break. -/
def prTailCmp (p q : List PrereleaseVersion) : Int :=
  if p.length = 0 ∧ q.length = 0 then 0
  else if p.length = 0 ∧ 0 < q.length then 1
  else if 0 < p.length ∧ q.length = 0 then -1
  else prereleaseListCompare p q

theorem prTailCmp_lawful : LawfulCmp prTailCmp := by
  constructor
  · intro a b
    unfold prTailCmp
    split_ifs <;> first
    | decide
    | exact prereleaseListCompare_lawful.vals _ _
  · intro a b
    cases a <;> cases b <;> simp [prTailCmp]
    exact prereleaseListCompare_lawful.flip _ _
  · intro a b c hab
    cases a <;> cases b <;> simp [prTailCmp] at hab
    · rfl
    · cases c <;> simp [prTailCmp]
      exact prereleaseListCompare_lawful.zero_congr _ _ _ hab
  · intro a b c hab hbc
    cases a <;> cases b <;> simp [prTailCmp] at hab
    · cases c <;> simp [prTailCmp] at hbc
    · cases c <;> simp [prTailCmp] at hbc ⊢
      exact prereleaseListCompare_lawful.neg_trans _ _ _ hab hbc

theorem thenCmp_layer (x y : Nat) (r s : Int) (hrs : x = y → r = s) :
    (if x ≠ y then (if y < x then (1 : Int) else -1) else r) = thenCmp (natCmp x y) s := by
  by_cases h : x = y
  · simp [h, natCmp, thenCmp, lt_irrefl, hrs h]
  · rcases Nat.lt_trichotomy x y with hlt | heq | hgt
    · simp [h, natCmp, thenCmp, hlt, Nat.lt_asymm hlt]
    · exact absurd heq h
    · simp [h, natCmp, thenCmp, hgt, Nat.lt_asymm hgt]

theorem versionCompare_eq_key (a b : Version) :
    a.Compare b = thenCmp (natCmp a.Major b.Major) (thenCmp (natCmp a.Minor b.Minor)
      (thenCmp (natCmp a.Patch b.Patch) (prTailCmp a.PreRelease b.PreRelease))) := by
  unfold Version.Compare
  refine thenCmp_layer _ _ _ _ (fun h1 => ?_)
  refine thenCmp_layer _ _ _ _ (fun h2 => ?_)
  refine thenCmp_layer _ _ _ _ (fun h3 => ?_)
  unfold prTailCmp
  rfl

theorem versionCompare_lawful : LawfulCmp Version.Compare := by
  have h :=
    (natCmp_lawful.comap Version.Major).thenCmp_lawful
      ((natCmp_lawful.comap Version.Minor).thenCmp_lawful
        ((natCmp_lawful.comap Version.Patch).thenCmp_lawful
          (prTailCmp_lawful.comap Version.PreRelease)))
  constructor
  · intro a b
    rw [versionCompare_eq_key]
    exact h.vals a b
  · intro a b
    rw [versionCompare_eq_key, versionCompare_eq_key]
    exact h.flip a b
  · intro a b c hab
    rw [versionCompare_eq_key] at hab ⊢
    rw [versionCompare_eq_key]
    exact h.zero_congr a b c hab
  · intro a b c hab hbc
    rw [versionCompare_eq_key] at hab hbc ⊢
    exact h.neg_trans a b c hab hbc

theorem LawfulCmp.refl_eq {α : Type} {f : α → α → Int} (h : LawfulCmp f) (a : α) :
    f a a = 0 := by
  have := h.flip a a
  omega

end Semver

deriving instance DecidableEq for Except

namespace Semver

/-- Statement helper: compare the results of two (strict) parses. -/
def cmpParsed (s t : List Char) : Except SemverError Int := do
  let a ← parse true s
  let b ← parse true t
  pure (a.Compare b)

/-- Claim C1: `Version.Compare` induces a strict total order: each value is
one of -1, 0, 1; swapping the arguments negates the result; mutual ≤ 0
forces 0; and ≤ 0 is transitive (through the element-wise pre-release
comparison with the numeric-before-textual rule). -/
theorem claim_C1 (a b c : Version) :
    (a.Compare b = -1 ∨ a.Compare b = 0 ∨ a.Compare b = 1) ∧
    b.Compare a = -a.Compare b ∧
    (a.Compare b ≤ 0 → b.Compare a ≤ 0 → a.Compare b = 0) ∧
    (a.Compare b ≤ 0 → b.Compare c ≤ 0 → a.Compare c ≤ 0) :=
  ⟨versionCompare_lawful.vals a b, versionCompare_lawful.flip a b,
    versionCompare_lawful.le_antisymm' a b, versionCompare_lawful.le_total_trans a b c⟩

/-- Claim C2, counterexample: the strict-adherence flag does not alone
control leading-zero rejection. Under strict configuration `1.0.0-01` fails
with the invalid-pre-release error (not the leading-zero error); under
non-strict configuration the same input still fails for a leading-zero
reason (`NewPrereleaseVersion`); and a leading-zero major is rejected even
in non-strict mode. -/
theorem claim_C2_counterexample :
    parse true "1.0.0-01".toList = .error .invalidPrereleaseIdentifier ∧
    parse false "1.0.0-01".toList = .error .numericPrereleaseLeadingZero ∧
    parse false "01.0.0".toList = .error .leadingZeroInNumericIdentifier := by
  decide

/-- Claim C2, amended: leading zeros in numeric identifiers are rejected in
both modes; the flag only selects which error reports a leading-zero
pre-release identifier (strict: invalid pre-release identifier, from the
validity check; non-strict: the `NewPrereleaseVersion` leading-zero error),
while a leading-zero major/minor/patch run fails with the leading-zero
error regardless of the flag. -/
theorem claim_C2 :
    (∀ b : Bool, parse b "01.0.0".toList = .error .leadingZeroInNumericIdentifier) ∧
    (∀ b : Bool, parse b "1.01.0".toList = .error .leadingZeroInNumericIdentifier) ∧
    parse true "1.0.0-01".toList = .error .invalidPrereleaseIdentifier ∧
    parse false "1.0.0-01".toList = .error .numericPrereleaseLeadingZero := by
  decide

/-- Claim C4: build metadata never influences comparison or equality:
versions agreeing on major, minor, patch and the pre-release sequence
compare equal whatever their build metadata, and in particular the parses
of `1.0.0+x` and `1.0.0+y` compare equal. -/
theorem claim_C4 (a b : Version) (hM : a.Major = b.Major) (hm : a.Minor = b.Minor)
    (hp : a.Patch = b.Patch) (hpre : a.PreRelease = b.PreRelease) :
    a.Compare b = 0 ∧ a.Equal b = true ∧ cmpParsed "1.0.0+x".toList "1.0.0+y".toList = .ok 0 := by
  have hz : a.Compare b = 0 := by
    rw [versionCompare_eq_key, hM, hm, hp, hpre]
    rw [natCmp_lawful.refl_eq b.Major, natCmp_lawful.refl_eq b.Minor,
      natCmp_lawful.refl_eq b.Patch, prTailCmp_lawful.refl_eq]
    rfl
  refine ⟨hz, ?_, by decide⟩
  rw [Version.Equal, hz]
  rfl

/-- Witness for C4 at two concrete versions differing only in build
metadata. -/
theorem claim_C4_witness :
    ({ Major := 1, BuildMetadata := [['x']] } : Version).Compare
        { Major := 1, BuildMetadata := [['y']] } = 0 ∧
    ({ Major := 1, BuildMetadata := [['x']] } : Version).Equal
        { Major := 1, BuildMetadata := [['y']] } = true ∧
    cmpParsed "1.0.0+x".toList "1.0.0+y".toList = .ok 0 :=
  claim_C4 { Major := 1, BuildMetadata := [['x']] } { Major := 1, BuildMetadata := [['y']] }
    rfl rfl rfl rfl

/-- Claim C5: the semver example precedence chain holds end-to-end on
parsed versions: 1.0.0-alpha < 1.0.0-alpha.1 < 1.0.0-alpha.beta <
1.0.0-beta < 1.0.0-beta.2 < 1.0.0-beta.11 < 1.0.0-rc.1 < 1.0.0. -/
theorem claim_C5 :
    cmpParsed "1.0.0-alpha".toList "1.0.0-alpha.1".toList = .ok (-1) ∧
    cmpParsed "1.0.0-alpha.1".toList "1.0.0-alpha.beta".toList = .ok (-1) ∧
    cmpParsed "1.0.0-alpha.beta".toList "1.0.0-beta".toList = .ok (-1) ∧
    cmpParsed "1.0.0-beta".toList "1.0.0-beta.2".toList = .ok (-1) ∧
    cmpParsed "1.0.0-beta.2".toList "1.0.0-beta.11".toList = .ok (-1) ∧
    cmpParsed "1.0.0-beta.11".toList "1.0.0-rc.1".toList = .ok (-1) ∧
    cmpParsed "1.0.0-rc.1".toList "1.0.0".toList = .ok (-1) := by
  decide

theorem requirement_contains_iff (req : Requirement) (v : Version) :
    req.Contains v = true ↔
      (match req.Op with
       | .opEq => v.Compare req.Ver = 0
       | .opGt => v.Compare req.Ver = 1
       | .opGte => 0 ≤ v.Compare req.Ver
       | .opLt => v.Compare req.Ver = -1
       | .opLte => v.Compare req.Ver ≤ 0
       | .opNeq => v.Compare req.Ver ≠ 0) := by
  cases hop : req.Op <;>
    simp [Requirement.Contains, hop, Version.Equal, Version.GreaterThan,
      Version.GreaterThanOrEqual, Version.LessThan, Version.LessThanOrEqual]

/-- Statement helper: parse a range and a version, then evaluate
containment. -/
def rangeContainsStr (r s : List Char) : Option Bool :=
  match ParseRange r, parse true s with
  | .ok vr, .ok v => some (vr.Contains v)
  | _, _ => none

/-- Claim C6: `Contains` is true exactly when some AND-group of the range
is satisfied requirement by requirement, each operator deciding via
`Version.Compare`; in particular the three example ranges contain/exclude
the given versions. -/
theorem claim_C6 (r : VersionRange) (v : Version) :
    (r.Contains v = true ↔ ∃ g, g ∈ r.Requirements ∧ ∀ req ∈ g,
      (match req.Op with
       | .opEq => v.Compare req.Ver = 0
       | .opGt => v.Compare req.Ver = 1
       | .opGte => 0 ≤ v.Compare req.Ver
       | .opLt => v.Compare req.Ver = -1
       | .opLte => v.Compare req.Ver ≤ 0
       | .opNeq => v.Compare req.Ver ≠ 0)) ∧
    rangeContainsStr ">=1.0.0 <2.0.0".toList "1.5.0".toList = some true ∧
    rangeContainsStr ">=1.2.3 <2.0.0 || >=3.0.0".toList "3.1.0".toList = some true ∧
    rangeContainsStr "!=1.0.0".toList "1.0.0".toList = some false := by
  refine ⟨?_, by decide, by decide, by decide⟩
  simp [VersionRange.Contains, List.any_eq_true, List.all_eq_true, requirement_contains_iff]

theorem crossAND_requirements (r1 r2 : VersionRange) :
    (r1.crossAND r2).Requirements =
      (r1.Requirements.map (fun g1 => r2.Requirements.map (fun g2 => g1 ++ g2))).join := rfl

theorem crossAND_contains (r1 r2 : VersionRange) (v : Version) :
    (r1.crossAND r2).Contains v = (r1.Contains v && r2.Contains v) := by
  have hiff : (r1.crossAND r2).Contains v = true ↔
      (r1.Contains v = true ∧ r2.Contains v = true) := by
    unfold VersionRange.Contains
    rw [crossAND_requirements]
    constructor
    · intro h
      rcases List.any_eq_true.mp h with ⟨g, hg, hall⟩
      rcases List.mem_join.mp hg with ⟨gs, hgs, hgin⟩
      rcases List.mem_map.mp hgs with ⟨g1, hg1, rfl⟩
      rcases List.mem_map.mp hgin with ⟨g2, hg2, rfl⟩
      rw [List.all_append, Bool.and_eq_true] at hall
      exact ⟨List.any_eq_true.mpr ⟨g1, hg1, hall.1⟩, List.any_eq_true.mpr ⟨g2, hg2, hall.2⟩⟩
    · intro h
      rcases List.any_eq_true.mp h.1 with ⟨g1, hg1, h1⟩
      rcases List.any_eq_true.mp h.2 with ⟨g2, hg2, h2⟩
      refine List.any_eq_true.mpr ⟨g1 ++ g2, ?_, ?_⟩
      · exact List.mem_join.mpr ⟨_, List.mem_map_of_mem _ hg1, List.mem_map_of_mem _ hg2⟩
      · rw [List.all_append, Bool.and_eq_true]; exact ⟨h1, h2⟩
  cases h1 : r1.Contains v <;> cases h2 : r2.Contains v <;>
    simp [h1, h2] at hiff ⊢ <;> simp [hiff]

/-- The requirement group `ParseRange` builds for ">=1.0.0 <2.0.0 !=1.5.0"
(three appends from nil, so its backing array grows 1, 2, 4: length 3,
capacity 4). -/
def andBugGroup1 : List Requirement :=
  [⟨.opGte, { Major := 1 }⟩, ⟨.opLt, { Major := 2 }⟩, ⟨.opNeq, { Major := 1, Minor := 5 }⟩]

/-- The single requirement of ">=1.1.0". -/
def andBugReq110 : Requirement := ⟨.opGte, { Major := 1, Minor := 1 }⟩

/-- The single requirement of ">=1.2.0". -/
def andBugReq120 : Requirement := ⟨.opGte, { Major := 1, Minor := 2 }⟩

/-- The backing arrays after parsing both ranges: the first group's array
has one spare cell (`pad`: its initial content is never read, it is
overwritten before any read); the one-requirement groups have capacity
1. -/
def andBugHeap (pad : Requirement) : List (List Requirement) :=
  [andBugGroup1 ++ [pad], [andBugReq110], [andBugReq120]]

/-- Claim C7 (code bug): `OR` concatenates the outer sequences and
distributes as disjunction, and the cross-product semantics that the claim,
spec section 4.4, and AND's own doc comment state do make `Contains`
distribute as conjunction; but the Go loop's combinedReqs append writes
through the spare capacity of the first range's group, so at the
ParseRange-reachable input below the slice-level model of the loop
overwrites the first combined group with the second: the result is not the
cross-product, and containment at 1.1.5 is false where the two ranges both
contain it. -/
theorem claim_C7 (pad : Requirement) (r1 r2 : VersionRange) (v : Version) :
    (r1.OR r2).Requirements = r1.Requirements ++ r2.Requirements ∧
    (r1.OR r2).Contains v = (r1.Contains v || r2.Contains v) ∧
    (r1.crossAND r2).Contains v = (r1.Contains v && r2.Contains v) ∧
    ParseRange ">=1.0.0 <2.0.0 !=1.5.0".toList = .ok ⟨[andBugGroup1]⟩ ∧
    ParseRange ">=1.1.0 || >=1.2.0".toList = .ok ⟨[[andBugReq110], [andBugReq120]]⟩ ∧
    readRange (sliceAND (andBugHeap pad) [⟨0, 3⟩] [⟨1, 1⟩, ⟨2, 1⟩]).1
        (sliceAND (andBugHeap pad) [⟨0, 3⟩] [⟨1, 1⟩, ⟨2, 1⟩]).2 =
      ⟨[andBugGroup1 ++ [andBugReq120], andBugGroup1 ++ [andBugReq120]]⟩ ∧
    ((VersionRange.mk [andBugGroup1]).Contains { Major := 1, Minor := 1, Patch := 5 } &&
      (VersionRange.mk [[andBugReq110], [andBugReq120]]).Contains
        { Major := 1, Minor := 1, Patch := 5 }) = true ∧
    (VersionRange.mk [andBugGroup1 ++ [andBugReq120],
        andBugGroup1 ++ [andBugReq120]]).Contains { Major := 1, Minor := 1, Patch := 5 } =
      false ∧
    (VersionRange.mk [andBugGroup1]).crossAND (VersionRange.mk [[andBugReq110], [andBugReq120]])
      ≠ VersionRange.mk [andBugGroup1 ++ [andBugReq120], andBugGroup1 ++ [andBugReq120]] := by
  refine ⟨rfl, ?_, crossAND_contains r1 r2 v, by decide, by decide, rfl, by decide, by decide,
    by decide⟩
  unfold VersionRange.Contains VersionRange.OR
  exact List.any_append

theorem parseRangeGroup_length (toks : List (List Char)) (reqs : List Requirement)
    (h : parseRangeGroup toks = .ok reqs) : reqs.length = toks.length := by
  induction toks generalizing reqs with
  | nil =>
    simp only [parseRangeGroup] at h
    cases h
    rfl
  | cons tok rest ih =>
    cases hm : matchRangeToken tok with
    | none => simp [parseRangeGroup, hm] at h
    | some pair =>
      obtain ⟨op, verStr⟩ := pair
      cases hp : parse true verStr with
      | error e => simp [parseRangeGroup, hm, hp] at h
      | ok ver =>
        cases hr : parseRangeGroup rest with
        | error e => simp [parseRangeGroup, hm, hp, hr] at h
        | ok reqs2 =>
          simp only [parseRangeGroup, hm, hp, hr] at h
          cases h
          simp [ih reqs2 hr]

theorem dropWhile_headI_false {p : Char → Bool} (l : List Char)
    (h : l.dropWhile p ≠ []) : p ((l.dropWhile p).headI) = false := by
  induction l with
  | nil => simp at h
  | cons c rest ih =>
    by_cases hc : p c
    · rw [List.dropWhile_cons_of_pos hc] at h ⊢
      exact ih h
    · rw [List.dropWhile_cons_of_neg hc] at h ⊢
      simpa using hc

theorem fieldsAux_eq_nil (s cur : List Char) :
    fieldsAux cur s = [] ↔ cur = [] ∧ s.all isSpaceChar = true := by
  induction s generalizing cur with
  | nil =>
    by_cases hc : cur.isEmpty
    · simp [fieldsAux, hc, List.isEmpty_iff.mp hc]
    · simp [fieldsAux, hc, List.isEmpty_iff]
      intro h
      rw [h] at hc
      simp at hc
  | cons c rest ih =>
    by_cases hsp : isSpaceChar c
    · by_cases hc : cur.isEmpty
      · simp [fieldsAux, hsp, hc, ih, List.isEmpty_iff.mp hc]
      · simp [fieldsAux, hsp, hc, List.isEmpty_iff]
        intro h
        rw [h] at hc
        simp at hc
    · simp [fieldsAux, hsp, ih]

theorem trimSpace_has_nonspace (s : List Char) (h : (trimSpace s).length ≠ 0) :
    (trimSpace s).all isSpaceChar = false := by
  unfold trimSpace at h ⊢
  set t := (s.dropWhile isSpaceChar).reverse with ht
  cases hd : t.dropWhile isSpaceChar with
  | nil => rw [hd] at h; simp at h
  | cons c cs =>
    have hhead : isSpaceChar c = false := by
      have h2 := dropWhile_headI_false t (by rw [hd]; simp)
      rwa [hd] at h2
    rw [Bool.eq_false_iff]
    intro hall
    rw [List.all_eq_true] at hall
    have hc := hall c (by simp)
    rw [hhead] at hc
    cases hc

theorem fields_ne_nil (s : List Char) (h : (trimSpace s).length ≠ 0) :
    fields (trimSpace s) ≠ [] := by
  intro hnil
  rw [fields, fieldsAux_eq_nil] at hnil
  rw [trimSpace_has_nonspace s h] at hnil
  cases hnil.2

theorem parseRangeGroups_ne_nil (parts : List (List Char))
    (groups : List (List Requirement)) (h : parseRangeGroups parts = .ok groups) :
    ∀ g ∈ groups, g ≠ [] := by
  induction parts generalizing groups with
  | nil =>
    simp only [parseRangeGroups] at h
    cases h
    simp
  | cons part rest ih =>
    by_cases ht : (trimSpace part).length = 0
    · simp only [parseRangeGroups, if_pos ht] at h
      exact ih groups h
    · have ht2 : ¬ trimSpace part = [] := fun hnil => ht (by rw [hnil]; rfl)
      cases hg : parseRangeGroup (fields (trimSpace part)) with
      | error e => simp [parseRangeGroups, ht2, hg] at h
      | ok reqs =>
        cases hr : parseRangeGroups rest with
        | error e => simp [parseRangeGroups, ht2, hg, hr] at h
        | ok groups2 =>
          simp only [parseRangeGroups, if_neg ht, hg, hr] at h
          cases h
          intro g hgmem
          rcases List.mem_cons.mp hgmem with rfl | hgmem2
          · intro hreqs
            have hlen := parseRangeGroup_length _ _ hg
            rw [hreqs] at hlen
            exact fields_ne_nil part ht (List.length_eq_zero.mp hlen.symm)
          · exact ih groups2 hr g hgmem2

/-- Claim C9: range edge cases: an empty outer group sequence contains
nothing; a range holding an empty AND-group contains everything; and
`ParseRange` skips empty OR-groups instead of producing an empty AND-group
(so adjacent or leading/trailing `||` do not change the result). -/
theorem claim_C9 (v : Version) (s : List Char) (vr : VersionRange)
    (hsv : ParseRange s = .ok vr) :
    (VersionRange.mk []).Contains v = false ∧
    (∀ vr2 : VersionRange, [] ∈ vr2.Requirements → vr2.Contains v = true) ∧
    (∀ g ∈ vr.Requirements, g ≠ []) ∧
    ParseRange "1.0.0 || || 2.0.0".toList = ParseRange "1.0.0 || 2.0.0".toList ∧
    ParseRange "|| 1.0.0 ||".toList = ParseRange "1.0.0".toList := by
  refine ⟨rfl, ?_, ?_, by decide, by decide⟩
  · intro vr2 hmem
    exact List.any_eq_true.mpr ⟨[], hmem, rfl⟩
  · unfold ParseRange at hsv
    cases hg : parseRangeGroups (splitOnOrOr [] s) with
    | error e => rw [hg] at hsv; cases hsv
    | ok groups =>
      rw [hg] at hsv
      cases hsv
      exact parseRangeGroups_ne_nil _ _ hg

/-- Witness for C9 at a concrete parsed range with two AND-groups. -/
theorem claim_C9_witness :
    ParseRange ">=1.0.0 || <0.5.0".toList =
      .ok ⟨[[⟨.opGte, { Major := 1 }⟩], [⟨.opLt, { Minor := 5 }⟩]]⟩ ∧
    ((VersionRange.mk []).Contains { Major := 1 } = false ∧
    (∀ vr2 : VersionRange, [] ∈ vr2.Requirements → vr2.Contains { Major := 1 } = true) ∧
    (∀ g ∈ (VersionRange.mk [[⟨.opGte, { Major := 1 }⟩], [⟨.opLt, { Minor := 5 }⟩]]).Requirements,
      g ≠ []) ∧
    ParseRange "1.0.0 || || 2.0.0".toList = ParseRange "1.0.0 || 2.0.0".toList ∧
    ParseRange "|| 1.0.0 ||".toList = ParseRange "1.0.0".toList) :=
  ⟨by decide, claim_C9 { Major := 1 } ">=1.0.0 || <0.5.0".toList
    ⟨[[⟨.opGte, { Major := 1 }⟩], [⟨.opLt, { Minor := 5 }⟩]]⟩ (by decide)⟩

theorem foldl_mod_eq (l : List Char) (a : Nat) :
    l.foldl (fun n d => (n * 10 + digitVal d) % U64) (a % U64) =
      (l.foldl (fun n d => n * 10 + digitVal d) a) % U64 := by
  induction l generalizing a with
  | nil => simp
  | cons c l' ih =>
    simp only [List.foldl_cons]
    have hstep : (a % U64 * 10 + digitVal c) % U64 = (a * 10 + digitVal c) % U64 :=
      ((Nat.mod_modEq a U64).mul_right 10).add_right (digitVal c)
    rw [hstep]
    exact ih (a * 10 + digitVal c)

theorem dropWhile_eq_self_of_takeWhile_nil {p : Char → Bool} (rest : List Char)
    (h : rest.takeWhile p = []) : rest.dropWhile p = rest := by
  cases rest with
  | nil => rfl
  | cons c cs =>
    rw [List.takeWhile_cons] at h
    by_cases hc : p c
    · rw [if_pos hc] at h; cases h
    · exact List.dropWhile_cons_of_neg hc

theorem takeWhile_all_append {p : Char → Bool} (l rest : List Char) (hl : l.all p = true)
    (hrest : rest.takeWhile p = []) :
    (l ++ rest).takeWhile p = l ∧ (l ++ rest).dropWhile p = rest := by
  induction l with
  | nil => exact ⟨hrest, dropWhile_eq_self_of_takeWhile_nil rest hrest⟩
  | cons c l' ih =>
    rw [List.all_cons, Bool.and_eq_true] at hl
    have hih := ih hl.2
    simp [List.takeWhile_cons, List.dropWhile_cons, hl.1, hih.1, hih.2]

theorem parseNumericIdentifier_digits (l rest : List Char) (hl : l.all isDigitChar = true)
    (hne : l ≠ []) (hld : l.headI ≠ '0') (hrest : rest.takeWhile isDigitChar = []) :
    parseNumericIdentifier (l ++ rest) = .ok (digitsVal l % U64, rest) := by
  cases l with
  | nil => cases hne rfl
  | cons c l' =>
    rw [List.all_cons, Bool.and_eq_true] at hl
    have hld2 : ¬ c = '0' := by simpa using hld
    have htd := takeWhile_all_append l' rest hl.2 hrest
    show parseNumericIdentifier (c :: (l' ++ rest)) = _
    simp only [parseNumericIdentifier, if_neg hld2, hl.1, if_true, htd.1, htd.2]
    have hfold : (c :: l').foldl (fun n d => (n * 10 + digitVal d) % U64) 0 =
        digitsVal (c :: l') % U64 := by
      have h2 := foldl_mod_eq (c :: l') 0
      rw [Nat.zero_mod] at h2
      simpa [digitsVal] using h2
    rw [hfold]

/-- Claim C10: the byte-level numeric accumulation has no overflow check:
any digit run (no leading zero) parses with its value reduced modulo 2^64
and no error, so a major of 2^64 parses as 0, while a numeric pre-release
identifier of 2^64 or more is rejected (strconv.ParseUint range error). -/
theorem claim_C10 (l rest : List Char) (hl : l.all isDigitChar = true) (hne : l ≠ [])
    (hld : l.headI ≠ '0') (hrest : rest.takeWhile isDigitChar = []) :
    parseNumericIdentifier (l ++ rest) = .ok (digitsVal l % U64, rest) ∧
    (U64 ≤ digitsVal l → NewPrereleaseVersion l = .error .parseUintRange) ∧
    parse true "18446744073709551616.0.0".toList =
      .ok { Major := 0, Minor := 0, Patch := 0 } ∧
    parse true "1.0.0-18446744073709551616".toList = .error .parseUintRange := by
  refine ⟨parseNumericIdentifier_digits l rest hl hne hld hrest, ?_, by decide, by decide⟩
  intro hbig
  have hnum : containsOnlyNumbers l = true := hl
  have hnolead : ¬ (1 < l.length ∧ l.headI = '0') := fun hcontra => hld hcontra.2
  have hlen : ¬ l.length = 0 := by
    cases l
    · cases hne rfl
    · simp
  simp only [NewPrereleaseVersion, if_neg hlen, hnum, if_true, if_neg hnolead, parseUint64,
    if_neg (not_lt.mpr hbig)]

/-- Witness for C10 at the digit run for 2^64. -/
theorem claim_C10_witness :
    parseNumericIdentifier ("18446744073709551616".toList ++ []) =
      .ok (digitsVal "18446744073709551616".toList % U64, []) ∧
    (U64 ≤ digitsVal "18446744073709551616".toList →
      NewPrereleaseVersion "18446744073709551616".toList = .error .parseUintRange) ∧
    parse true "18446744073709551616.0.0".toList =
      .ok { Major := 0, Minor := 0, Patch := 0 } ∧
    parse true "1.0.0-18446744073709551616".toList = .error .parseUintRange :=
  claim_C10 "18446744073709551616".toList [] (by decide) (by decide) (by decide) (by decide)

theorem digitChar_isDigit {d : Nat} (h : d < 10) : isDigitChar (digitChar d) = true := by
  interval_cases d <;> decide

theorem digitChar_ne_zero {d : Nat} (h : d < 10) (h0 : d ≠ 0) : digitChar d ≠ '0' := by
  interval_cases d
  · exact absurd rfl h0
  all_goals decide

theorem digitVal_digitChar {d : Nat} (h : d < 10) : digitVal (digitChar d) = d := by
  interval_cases d <;> decide

theorem natToCharsAux_eq (fuel : Nat) : ∀ (n : Nat) (acc : List Char), n < fuel →
    natToCharsAux fuel n acc =
      (if n = 0 then ['0'] else ((Nat.digits 10 n).map digitChar).reverse) ++ acc := by
  induction fuel with
  | zero => omega
  | succ fuel ih =>
    intro n acc h
    by_cases hn : n < 10
    · simp only [natToCharsAux, if_pos hn]
      by_cases h0 : n = 0
      · subst h0; rfl
      · rw [if_neg h0, Nat.digits_of_lt 10 n h0 hn]
        simp
    · have hn0 : 0 < n := by omega
      have hdiv : n / 10 < fuel := by
        have := Nat.div_lt_self hn0 (by norm_num : (1 : Nat) < 10)
        omega
      simp only [natToCharsAux, if_neg hn]
      rw [ih (n / 10) _ hdiv]
      have hd10 : ¬ n / 10 = 0 := by
        have := Nat.div_pos (by omega : 10 ≤ n) (by norm_num : (0 : Nat) < 10)
        omega
      rw [if_neg hd10, if_neg (by omega : ¬ n = 0)]
      rw [Nat.digits_def' (by norm_num : (1 : Nat) < 10) hn0]
      simp [List.reverse_cons, List.append_assoc]

theorem natToChars_eq (n : Nat) :
    natToChars n = if n = 0 then ['0'] else ((Nat.digits 10 n).map digitChar).reverse := by
  rw [natToChars, natToCharsAux_eq (n + 1) n [] (by omega)]
  simp

theorem natToChars_ne_nil (n : Nat) : natToChars n ≠ [] := by
  rw [natToChars_eq]
  by_cases h : n = 0
  · simp [h]
  · simp [h, Nat.digits_ne_nil_iff_ne_zero.mpr h]

theorem natToChars_all_digits (n : Nat) : (natToChars n).all isDigitChar = true := by
  rw [natToChars_eq]
  by_cases h : n = 0
  · rw [if_pos h]; decide
  · rw [if_neg h, List.all_eq_true]
    intro c hc
    rw [List.mem_reverse, List.mem_map] at hc
    obtain ⟨d, hd, rfl⟩ := hc
    exact digitChar_isDigit (Nat.digits_lt_base (by norm_num) hd)

theorem natToCharsAux_headI (fuel : Nat) : ∀ (n : Nat) (acc : List Char), n < fuel → 0 < n →
    (natToCharsAux fuel n acc).headI ≠ '0' := by
  induction fuel with
  | zero => omega
  | succ fuel ih =>
    intro n acc h hn
    by_cases h10 : n < 10
    · simp only [natToCharsAux, if_pos h10]
      simpa using digitChar_ne_zero h10 (by omega)
    · have hdiv : n / 10 < fuel := by
        have := Nat.div_lt_self (by omega : 0 < n) (by norm_num : (1 : Nat) < 10)
        omega
      simp only [natToCharsAux, if_neg h10]
      exact ih (n / 10) _ hdiv (Nat.div_pos (by omega) (by norm_num))

theorem natToChars_headI {n : Nat} (hn : 0 < n) : (natToChars n).headI ≠ '0' :=
  natToCharsAux_headI (n + 1) n [] (by omega) hn

theorem digitsVal_append_singleton (l : List Char) (c : Char) :
    digitsVal (l ++ [c]) = digitsVal l * 10 + digitVal c := by
  simp [digitsVal, List.foldl_append]

theorem digitsVal_rev_map (L : List Nat) (hL : ∀ d ∈ L, d < 10) :
    digitsVal ((L.map digitChar).reverse) = Nat.ofDigits 10 L := by
  induction L with
  | nil => simp [digitsVal, Nat.ofDigits_nil]
  | cons d L' ih =>
    rw [List.map_cons, List.reverse_cons, digitsVal_append_singleton]
    rw [ih (fun x hx => hL x (List.mem_cons_of_mem d hx))]
    rw [digitVal_digitChar (hL d (List.mem_cons_self d L'))]
    rw [Nat.ofDigits_cons]
    ring

theorem digitsVal_natToChars (n : Nat) : digitsVal (natToChars n) = n := by
  rw [natToChars_eq]
  by_cases h : n = 0
  · rw [if_pos h, h]; decide
  · rw [if_neg h, digitsVal_rev_map _ (fun d hd => Nat.digits_lt_base (by norm_num) hd),
      Nat.ofDigits_digits]

theorem parseNumericIdentifier_natToChars (n : Nat) (rest : List Char) (hn : n < U64)
    (hrest : rest.takeWhile isDigitChar = []) :
    parseNumericIdentifier (natToChars n ++ rest) = .ok (n, rest) := by
  by_cases h0 : n = 0
  · subst h0
    have hz : natToChars 0 = ['0'] := rfl
    rw [hz]
    cases rest with
    | nil => rfl
    | cons d rest' =>
      have hd : isDigitChar d = false := by
        by_cases hdd : isDigitChar d
        · rw [List.takeWhile_cons, if_pos hdd] at hrest; cases hrest
        · simpa using hdd
      simp [parseNumericIdentifier, hd]
  · rw [parseNumericIdentifier_digits (natToChars n) rest (natToChars_all_digits n)
      (natToChars_ne_nil n) (natToChars_headI (by omega)) hrest,
      digitsVal_natToChars, Nat.mod_eq_of_lt hn]

/-- The invariants every pre-release component built by
`NewPrereleaseVersion` satisfies (unused payload field at its zero
value). -/
def WFPre (p : PrereleaseVersion) : Prop :=
  (p.isNumeric = true → p.partNumeric < U64 ∧ p.partString = []) ∧
  (p.isNumeric = false → p.partNumeric = 0 ∧ p.partString ≠ [] ∧
    containsOnlyAlphanumeric p.partString = true ∧ containsOnlyNumbers p.partString = false)

/-- The invariants every build-metadata identifier accepted by the parser
satisfies. -/
def WFBuild (s : List Char) : Prop := s ≠ [] ∧ s.all isAllowedInIdentifier = true

/-- The invariants every `Version` produced by a successful parse
satisfies. -/
def WF (v : Version) : Prop :=
  v.Major < U64 ∧ v.Minor < U64 ∧ v.Patch < U64 ∧
  (∀ p ∈ v.PreRelease, WFPre p) ∧ (∀ b ∈ v.BuildMetadata, WFBuild b)

theorem U64_pos : 0 < U64 := by decide

theorem newPrereleaseVersion_wf (s : List Char) (p : PrereleaseVersion)
    (h : NewPrereleaseVersion s = .ok p) : WFPre p := by
  unfold NewPrereleaseVersion at h
  by_cases hlen : s.length = 0
  · rw [if_pos hlen] at h; cases h
  · rw [if_neg hlen] at h
    by_cases hnum : containsOnlyNumbers s
    · rw [if_pos hnum] at h
      by_cases hlead : 1 < s.length ∧ s.headI = '0'
      · rw [if_pos hlead] at h; cases h
      · rw [if_neg hlead] at h
        unfold parseUint64 at h
        by_cases hv : digitsVal s < U64
        · rw [if_pos hv] at h
          cases h
          exact ⟨fun _ => ⟨hv, rfl⟩, fun hfalse => by cases hfalse⟩
        · rw [if_neg hv] at h; cases h
    · rw [if_neg hnum] at h
      by_cases halpha : containsOnlyAlphanumeric s
      · rw [if_pos halpha] at h
        cases h
        constructor
        · intro hfalse; cases hfalse
        · intro _
          refine ⟨rfl, ?_, halpha, by simpa using hnum⟩
          intro hnil
          simp only at hnil
          rw [hnil] at hlen
          exact hlen rfl
      · rw [if_neg halpha] at h; cases h

theorem prereleaseFinishPart_wf (strict : Bool) (cur : List Char)
    (acc res : List PrereleaseVersion) (h : prereleaseFinishPart strict cur acc = .ok res)
    (hacc : ∀ p ∈ acc, WFPre p) : ∀ p ∈ res, WFPre p := by
  unfold prereleaseFinishPart at h
  by_cases h1 : cur.length = 0
  · rw [if_pos h1] at h; cases h
  · rw [if_neg h1] at h
    by_cases h2 : isValidPrereleaseIdentifier strict cur
    · rw [if_neg (by simpa using h2)] at h
      cases hnew : NewPrereleaseVersion cur with
      | error e => rw [hnew] at h; cases h
      | ok comp =>
        rw [hnew] at h
        cases h
        intro p hp
        rcases List.mem_append.mp hp with hp2 | hp2
        · exact hacc p hp2
        · rw [List.mem_singleton.mp hp2]
          exact newPrereleaseVersion_wf cur comp hnew
    · rw [if_pos (by simpa using h2)] at h; cases h

theorem parsePrereleaseLoop_wf (strict : Bool) (s : List Char) :
    ∀ (cur : List Char) (acc res : List PrereleaseVersion),
      parsePrereleaseLoop strict s cur acc = .ok res →
      (∀ p ∈ acc, WFPre p) → ∀ p ∈ res, WFPre p := by
  induction s with
  | nil =>
    intro cur acc res h hacc
    exact prereleaseFinishPart_wf strict cur acc res h hacc
  | cons ch rest ih =>
    intro cur acc res h hacc
    by_cases hdot : ch = '.'
    · rw [parsePrereleaseLoop, if_pos hdot] at h
      cases hfin : prereleaseFinishPart strict cur acc with
      | error e => rw [hfin] at h; cases h
      | ok acc2 =>
        rw [hfin] at h
        exact ih [] acc2 res h (prereleaseFinishPart_wf strict cur acc acc2 hfin hacc)
    · rw [parsePrereleaseLoop, if_neg hdot] at h
      by_cases hbad : 127 < ch.toNat ∨ ¬ isAllowedInIdentifier ch
      · rw [if_pos hbad] at h; cases h
      · rw [if_neg hbad] at h
        exact ih (cur ++ [ch]) acc res h hacc

theorem buildFinishPart_wf (cur : List Char) (acc res : List (List Char))
    (h : buildFinishPart cur acc = .ok res) (hacc : ∀ b ∈ acc, WFBuild b) :
    ∀ b ∈ res, WFBuild b := by
  unfold buildFinishPart at h
  by_cases h1 : cur.length = 0
  · rw [if_pos h1] at h; cases h
  · rw [if_neg h1] at h
    by_cases h2 : isValidBuildIdentifier cur
    · rw [if_neg (by simpa using h2)] at h
      cases h
      intro b hb
      rcases List.mem_append.mp hb with hb2 | hb2
      · exact hacc b hb2
      · rw [List.mem_singleton.mp hb2]
        refine ⟨by simpa using h1, ?_⟩
        unfold isValidBuildIdentifier at h2
        rwa [if_neg h1] at h2
    · rw [if_pos (by simpa using h2)] at h; cases h

theorem parseBuildMetadataLoop_wf (s : List Char) :
    ∀ (cur : List Char) (acc res : List (List Char)),
      parseBuildMetadataLoop s cur acc = .ok res →
      (∀ b ∈ acc, WFBuild b) → ∀ b ∈ res, WFBuild b := by
  induction s with
  | nil =>
    intro cur acc res h hacc
    exact buildFinishPart_wf cur acc res h hacc
  | cons ch rest ih =>
    intro cur acc res h hacc
    by_cases hdot : ch = '.'
    · rw [parseBuildMetadataLoop, if_pos hdot] at h
      cases hfin : buildFinishPart cur acc with
      | error e => rw [hfin] at h; cases h
      | ok acc2 =>
        rw [hfin] at h
        exact ih [] acc2 res h (buildFinishPart_wf cur acc acc2 hfin hacc)
    · rw [parseBuildMetadataLoop, if_neg hdot] at h
      by_cases hbad : 127 < ch.toNat ∨ ¬ isAllowedInIdentifier ch
      · rw [if_pos hbad] at h; cases h
      · rw [if_neg hbad] at h
        exact ih (cur ++ [ch]) acc res h hacc

theorem parsePrerelease_wf (strict : Bool) (s : List Char) (res : List PrereleaseVersion)
    (h : parsePrerelease strict s = .ok res) : ∀ p ∈ res, WFPre p := by
  unfold parsePrerelease at h
  by_cases hlen : s.length = 0
  · rw [if_pos hlen] at h; cases h
  · rw [if_neg hlen] at h
    exact parsePrereleaseLoop_wf strict s [] [] res h (by simp)

theorem parseBuildMetadata_wf (s : List Char) (res : List (List Char))
    (h : parseBuildMetadata s = .ok res) : ∀ b ∈ res, WFBuild b := by
  unfold parseBuildMetadata at h
  by_cases hlen : s.length = 0
  · rw [if_pos hlen] at h; cases h
  · rw [if_neg hlen] at h
    exact parseBuildMetadataLoop_wf s [] [] res h (by simp)

theorem buildTail_wf (pr2 : List PrereleaseVersion) (r : List Char)
    (pr : List PrereleaseVersion) (bm : List (List Char)) (leftover : List Char)
    (hpr2 : ∀ p ∈ pr2, WFPre p) (hstep : buildTail pr2 r = .ok (pr, bm, leftover)) :
    (∀ p ∈ pr, WFPre p) ∧ ∀ b ∈ bm, WFBuild b := by
  unfold buildTail at hstep
  by_cases h2 : r ≠ [] ∧ r.headI = '+'
  · rw [if_pos h2] at hstep
    cases hbm : parseBuildMetadata r.tail with
    | error e => rw [hbm] at hstep; cases hstep
    | ok bm2 =>
      rw [hbm] at hstep
      simp only [Except.ok.injEq, Prod.mk.injEq] at hstep
      obtain ⟨hpq, hbq, _⟩ := hstep
      subst hpq; subst hbq
      exact ⟨hpr2, parseBuildMetadata_wf r.tail _ hbm⟩
  · rw [if_neg h2] at hstep
    simp only [Except.ok.injEq, Prod.mk.injEq] at hstep
    obtain ⟨hpq, hbq, _⟩ := hstep
    subst hpq; subst hbq
    exact ⟨hpr2, by simp⟩

theorem parsePreReleaseAndBuildMetadata_wf (strict : Bool) (s : List Char)
    (pr : List PrereleaseVersion) (bm : List (List Char)) (leftover : List Char)
    (h : parsePreReleaseAndBuildMetadata strict s = .ok (pr, bm, leftover)) :
    (∀ p ∈ pr, WFPre p) ∧ ∀ b ∈ bm, WFBuild b := by
  unfold parsePreReleaseAndBuildMetadata at h
  by_cases h1 : s ≠ [] ∧ s.headI = '-'
  · rw [if_pos h1] at h
    cases hscan : scanPrereleaseSegment s.tail with
    | error e => simp [hscan] at h
    | ok segr =>
      obtain ⟨seg, r⟩ := segr
      cases hpr : parsePrerelease strict seg with
      | error e => simp [hscan, hpr] at h
      | ok pr2 =>
        simp only [hscan, hpr] at h
        exact buildTail_wf pr2 r pr bm leftover (parsePrerelease_wf strict seg pr2 hpr) h
  · rw [if_neg h1] at h
    exact buildTail_wf [] s pr bm leftover (by simp) h

theorem parseNumericIdentifier_lt (s : List Char) (n : Nat) (r : List Char)
    (h : parseNumericIdentifier s = .ok (n, r)) : n < U64 := by
  cases s with
  | nil => simp [parseNumericIdentifier] at h
  | cons c rest =>
    by_cases hc : c = '0'
    · subst hc
      cases rest with
      | nil =>
        simp [parseNumericIdentifier] at h
        obtain ⟨h1, _⟩ := h
        subst h1
        exact U64_pos
      | cons d rest' =>
        by_cases hd : isDigitChar d
        · simp [parseNumericIdentifier, hd] at h
        · simp [parseNumericIdentifier, hd] at h
          obtain ⟨h1, _⟩ := h
          subst h1
          exact U64_pos
    · by_cases hdg : isDigitChar c
      · simp [parseNumericIdentifier, hc, hdg] at h
        obtain ⟨h1, _⟩ := h
        subst h1
        rw [foldl_mod_eq]
        exact Nat.mod_lt _ U64_pos
      · simp [parseNumericIdentifier, hc, hdg] at h

theorem parse_wf (strict : Bool) (s : List Char) (v : Version)
    (h : parse strict s = .ok v) : WF v := by
  unfold parse at h
  by_cases hlen : s.length = 0
  · rw [if_pos hlen] at h; cases h
  · rw [if_neg hlen] at h
    cases hM : parseNumericIdentifier s with
    | error e => simp [hM] at h
    | ok p1 =>
      obtain ⟨major, r1⟩ := p1
      simp only [hM] at h
      by_cases h1 : r1 ≠ [] ∧ r1.headI = '.'
      · rw [if_pos h1] at h
        cases hm : parseNumericIdentifier r1.tail with
        | error e => simp [hm] at h
        | ok p2 =>
          obtain ⟨minor, r2⟩ := p2
          simp only [hm] at h
          by_cases h2 : r2 ≠ [] ∧ r2.headI = '.'
          · rw [if_pos h2] at h
            cases hp : parseNumericIdentifier r2.tail with
            | error e => simp [hp] at h
            | ok p3 =>
              obtain ⟨patch, r3⟩ := p3
              simp only [hp] at h
              by_cases h3 : r3.length = 0
              · rw [if_pos h3] at h
                simp only [Except.ok.injEq] at h
                subst h
                exact ⟨parseNumericIdentifier_lt _ _ _ hM, parseNumericIdentifier_lt _ _ _ hm,
                  parseNumericIdentifier_lt _ _ _ hp, by simp, by simp⟩
              · rw [if_neg h3] at h
                cases hpb : parsePreReleaseAndBuildMetadata strict r3 with
                | error e => simp [hpb] at h
                | ok tup =>
                  obtain ⟨pr, bm, leftover⟩ := tup
                  simp only [hpb] at h
                  by_cases h4 : leftover.length ≠ 0
                  · rw [if_pos h4] at h; cases h
                  · rw [if_neg h4] at h
                    simp only [Except.ok.injEq] at h
                    subst h
                    have hwf := parsePreReleaseAndBuildMetadata_wf strict r3 pr bm leftover hpb
                    exact ⟨parseNumericIdentifier_lt _ _ _ hM,
                      parseNumericIdentifier_lt _ _ _ hm,
                      parseNumericIdentifier_lt _ _ _ hp, hwf.1, hwf.2⟩
          · rw [if_neg h2] at h; cases h
      · rw [if_neg h1] at h; cases h

theorem allowed_toNat_le {c : Char} (h : isAllowedInIdentifier c = true) : c.toNat ≤ 127 := by
  simp only [isAllowedInIdentifier, Bool.or_eq_true, Bool.and_eq_true,
    decide_eq_true_eq] at h
  rcases h with ((⟨_, h2⟩ | ⟨_, h2⟩) | ⟨_, h2⟩) | h2
  · have h3 : c.toNat ≤ 57 := h2
    omega
  · have h3 : c.toNat ≤ 90 := h2
    omega
  · have h3 : c.toNat ≤ 122 := h2
    omega
  · subst h2; decide

theorem allowed_ne_plus {c : Char} (h : isAllowedInIdentifier c = true) : c ≠ '+' := by
  intro hc
  subst hc
  exact absurd h (by decide)

theorem allowed_ne_dot {c : Char} (h : isAllowedInIdentifier c = true) : c ≠ '.' := by
  intro hc
  subst hc
  exact absurd h (by decide)

theorem digit_allowed {c : Char} (h : isDigitChar c = true) : isAllowedInIdentifier c = true := by
  simp only [isDigitChar] at h
  simp [isAllowedInIdentifier, h]

theorem isNumeric_eq (s : List Char) : isNumeric s = containsOnlyNumbers s := by
  unfold isNumeric containsOnlyNumbers
  induction s with
  | nil => rfl
  | cons c rest ih =>
    simp only [List.all_cons, ih]
    congr 1
    simp only [isDigitChar]
    rcases lt_or_le c '0' with h1 | h1
    · simp [h1, not_le.mpr h1]
    · rcases lt_or_le '9' c with h2 | h2
      · simp [not_lt.mpr h1, h2, not_le.mpr h2]
      · simp [not_lt.mpr h1, not_lt.mpr h2, h1, h2]

theorem alnum_allowed (s : List Char) (h : containsOnlyAlphanumeric s = true) :
    s.all isAllowedInIdentifier = true := by
  rw [List.all_eq_true]
  intro c hc
  have h2 := List.all_eq_true.mp h c hc
  simp only [Bool.or_eq_true] at h2
  simp only [isAllowedInIdentifier, Bool.or_eq_true]
  tauto

theorem prString_ne_nil {p : PrereleaseVersion} (h : WFPre p) : prString p ≠ [] := by
  cases hn : p.isNumeric
  · simp only [prString, hn, Bool.false_eq_true, if_false]
    exact ((h.2 hn).2).1
  · simp only [prString, hn, if_true]
    exact natToChars_ne_nil _

theorem prString_all_allowed {p : PrereleaseVersion} (h : WFPre p) :
    (prString p).all isAllowedInIdentifier = true := by
  cases hn : p.isNumeric
  · simp only [prString, hn, Bool.false_eq_true, if_false]
    exact alnum_allowed _ ((h.2 hn).2).2.1
  · simp only [prString, hn, if_true]
    rw [List.all_eq_true]
    intro c hc
    exact digit_allowed (List.all_eq_true.mp (natToChars_all_digits _) c hc)

theorem natToChars_no_leading_zero (m : Nat) :
    ¬ ((natToChars m).headI = '0' ∧ 1 < (natToChars m).length) := by
  intro ⟨hhead, hlen⟩
  by_cases hm : m = 0
  · subst hm
    have : natToChars 0 = ['0'] := rfl
    rw [this] at hlen
    simp at hlen
  · exact natToChars_headI (by omega) hhead

theorem prString_valid (strict : Bool) {p : PrereleaseVersion} (h : WFPre p) :
    isValidPrereleaseIdentifier strict (prString p) = true := by
  unfold isValidPrereleaseIdentifier
  rw [if_neg (by simpa using prString_ne_nil h),
    if_neg (by simpa using prString_all_allowed h)]
  rw [if_neg ?_]
  intro ⟨_, hnum, hhead, hlen⟩
  cases hn : p.isNumeric
  · rw [isNumeric_eq] at hnum
    simp only [prString, hn, Bool.false_eq_true, if_false] at hnum
    rw [((h.2 hn).2).2.2] at hnum
    cases hnum
  · simp only [prString, hn, if_true] at hhead hlen
    exact natToChars_no_leading_zero p.partNumeric ⟨hhead, hlen⟩

theorem newPrerelease_prString {p : PrereleaseVersion} (h : WFPre p) :
    NewPrereleaseVersion (prString p) = .ok p := by
  obtain ⟨ps, pn, pi⟩ := p
  cases pi
  · have ht := h.2 rfl
    simp only at ht
    obtain ⟨hn0, hne, halpha, hnum⟩ := ht
    have hps : prString ⟨ps, pn, false⟩ = ps := rfl
    rw [hps]
    unfold NewPrereleaseVersion
    rw [if_neg (by simpa using hne), hnum, if_neg (by simp), if_pos halpha]
    subst hn0
    rfl
  · have ht := h.1 rfl
    simp only at ht
    obtain ⟨hlt, hps⟩ := ht
    subst hps
    have hps2 : prString ⟨[], pn, true⟩ = natToChars pn := rfl
    rw [hps2]
    unfold NewPrereleaseVersion
    rw [if_neg (by simpa using natToChars_ne_nil pn)]
    have hnum : containsOnlyNumbers (natToChars pn) = true := natToChars_all_digits pn
    rw [hnum, if_pos rfl]
    rw [if_neg (fun hcon => natToChars_no_leading_zero pn ⟨hcon.2, hcon.1⟩)]
    unfold parseUint64
    rw [digitsVal_natToChars, if_pos hlt]

theorem prereleaseFinishPart_renders (strict : Bool) {p : PrereleaseVersion} (h : WFPre p)
    (acc : List PrereleaseVersion) :
    prereleaseFinishPart strict (prString p) acc = .ok (acc ++ [p]) := by
  unfold prereleaseFinishPart
  rw [if_neg (by simpa using prString_ne_nil h),
    if_neg (by simpa using prString_valid strict h), newPrerelease_prString h]

theorem parsePrereleaseLoop_walk (strict : Bool) (part : List Char) :
    ∀ (rest cur : List Char) (acc : List PrereleaseVersion),
      part.all isAllowedInIdentifier = true →
      parsePrereleaseLoop strict (part ++ rest) cur acc =
        parsePrereleaseLoop strict rest (cur ++ part) acc := by
  induction part with
  | nil => intro rest cur acc _; simp
  | cons ch part' ih =>
    intro rest cur acc hall
    rw [List.all_cons, Bool.and_eq_true] at hall
    have hdot : ¬ ch = '.' := allowed_ne_dot hall.1
    have hbad : ¬ (127 < ch.toNat ∨ ¬ isAllowedInIdentifier ch) := by
      push_neg
      exact ⟨allowed_toNat_le hall.1, by simpa using hall.1⟩
    rw [List.cons_append, parsePrereleaseLoop, if_neg hdot, if_neg hbad, ih rest _ acc hall.2]
    simp

theorem parseBuildMetadataLoop_walk (part : List Char) :
    ∀ (rest cur : List Char) (acc : List (List Char)),
      part.all isAllowedInIdentifier = true →
      parseBuildMetadataLoop (part ++ rest) cur acc =
        parseBuildMetadataLoop rest (cur ++ part) acc := by
  induction part with
  | nil => intro rest cur acc _; simp
  | cons ch part' ih =>
    intro rest cur acc hall
    rw [List.all_cons, Bool.and_eq_true] at hall
    have hdot : ¬ ch = '.' := allowed_ne_dot hall.1
    have hbad : ¬ (127 < ch.toNat ∨ ¬ isAllowedInIdentifier ch) := by
      push_neg
      exact ⟨allowed_toNat_le hall.1, by simpa using hall.1⟩
    rw [List.cons_append, parseBuildMetadataLoop, if_neg hdot, if_neg hbad, ih rest _ acc hall.2]
    simp

theorem mem_joinDot {c : Char} : ∀ (L : List (List Char)), c ∈ joinDot L →
    c = '.' ∨ ∃ l ∈ L, c ∈ l := by
  intro L
  induction L with
  | nil => intro h; cases h
  | cons p L' ih =>
    cases L' with
    | nil =>
      intro h
      exact Or.inr ⟨p, by simp, h⟩
    | cons q rest =>
      intro h
      rw [joinDot] at h
      rcases List.mem_append.mp h with h2 | h2
      · exact Or.inr ⟨p, by simp, h2⟩
      · rcases List.mem_cons.mp h2 with h3 | h3
        · exact Or.inl h3
        · rcases ih h3 with h4 | ⟨l, hl, hcl⟩
          · exact Or.inl h4
          · exact Or.inr ⟨l, List.mem_cons_of_mem p hl, hcl⟩

theorem scanPrereleaseSegment_walk (seg : List Char) :
    ∀ (r : List Char), (∀ c ∈ seg, c ≠ '+' ∧ c.toNat ≤ 127) →
      (r = [] ∨ (r ≠ [] ∧ r.headI = '+')) →
      scanPrereleaseSegment (seg ++ r) = .ok (seg, r) := by
  induction seg with
  | nil =>
    intro r _ hr
    rcases hr with rfl | ⟨hne, hplus⟩
    · rfl
    · cases r with
      | nil => cases hne rfl
      | cons c t =>
        simp only [List.headI] at hplus
        subst hplus
        rfl
  | cons c seg' ih =>
    intro r hseg hr
    have hc := hseg c (by simp)
    rw [List.cons_append, scanPrereleaseSegment, if_neg hc.1,
      if_neg (Nat.not_lt.mpr hc.2), ih r (fun x hx => hseg x (List.mem_cons_of_mem c hx)) hr]

theorem joinDot_ne_nil (L : List (List Char)) (hne : L ≠ []) (hhead : ∀ l ∈ L, l ≠ []) :
    joinDot L ≠ [] := by
  cases L with
  | nil => cases hne rfl
  | cons p L' =>
    cases L' with
    | nil =>
      simp only [joinDot]
      exact hhead p (by simp)
    | cons q rest =>
      simp only [joinDot]
      intro hcon
      rcases List.append_eq_nil.mp hcon with ⟨_, h2⟩
      cases h2

theorem parsePrereleaseLoop_join (strict : Bool) :
    ∀ (comps : List PrereleaseVersion) (acc : List PrereleaseVersion), comps ≠ [] →
      (∀ p ∈ comps, WFPre p) →
      parsePrereleaseLoop strict (joinDot (comps.map prString)) [] acc = .ok (acc ++ comps) := by
  intro comps
  induction comps with
  | nil => intro acc hne _; cases hne rfl
  | cons p comps' ih =>
    intro acc _ hwf
    have hp := hwf p (by simp)
    cases comps' with
    | nil =>
      show parsePrereleaseLoop strict (joinDot [prString p]) [] acc = _
      rw [joinDot]
      have hwalk := parsePrereleaseLoop_walk strict (prString p) [] [] acc
        (prString_all_allowed hp)
      rw [List.append_nil] at hwalk
      rw [hwalk, parsePrereleaseLoop, List.nil_append,
        prereleaseFinishPart_renders strict hp acc]
    | cons q comps'' =>
      show parsePrereleaseLoop strict
        (joinDot (prString p :: (q :: comps'').map prString)) [] acc = _
      have hjd : joinDot (prString p :: (q :: comps'').map prString) =
          prString p ++ '.' :: joinDot ((q :: comps'').map prString) := by
        simp only [List.map_cons, joinDot]
      rw [hjd, parsePrereleaseLoop_walk strict (prString p) _ [] acc
        (prString_all_allowed hp)]
      rw [parsePrereleaseLoop, if_pos rfl, List.nil_append,
        prereleaseFinishPart_renders strict hp acc]
      show parsePrereleaseLoop strict (joinDot ((q :: comps'').map prString)) [] (acc ++ [p]) = _
      rw [ih (acc ++ [p]) (by simp) (fun x hx => hwf x (List.mem_cons_of_mem p hx))]
      simp

theorem buildFinishPart_renders {b : List Char} (h : WFBuild b) (acc : List (List Char)) :
    buildFinishPart b acc = .ok (acc ++ [b]) := by
  unfold buildFinishPart
  rw [if_neg (by simpa using h.1)]
  rw [if_neg ?_]
  unfold isValidBuildIdentifier
  rw [if_neg (by simpa using h.1), h.2]
  simp

theorem parseBuildMetadataLoop_join :
    ∀ (comps : List (List Char)) (acc : List (List Char)), comps ≠ [] →
      (∀ b ∈ comps, WFBuild b) →
      parseBuildMetadataLoop (joinDot comps) [] acc = .ok (acc ++ comps) := by
  intro comps
  induction comps with
  | nil => intro acc hne _; cases hne rfl
  | cons b comps' ih =>
    intro acc _ hwf
    have hb := hwf b (by simp)
    cases comps' with
    | nil =>
      show parseBuildMetadataLoop (joinDot [b]) [] acc = _
      rw [joinDot]
      have hwalk := parseBuildMetadataLoop_walk b [] [] acc hb.2
      rw [List.append_nil] at hwalk
      rw [hwalk, parseBuildMetadataLoop, List.nil_append, buildFinishPart_renders hb acc]
    | cons q comps'' =>
      show parseBuildMetadataLoop (joinDot (b :: q :: comps'')) [] acc = _
      rw [joinDot, parseBuildMetadataLoop_walk b _ [] acc hb.2]
      rw [parseBuildMetadataLoop, if_pos rfl, List.nil_append, buildFinishPart_renders hb acc]
      show parseBuildMetadataLoop (joinDot (q :: comps'')) [] (acc ++ [b]) = _
      rw [ih (acc ++ [b]) (by simp) (fun x hx => hwf x (List.mem_cons_of_mem b hx))]
      simp

theorem parsePrerelease_join (strict : Bool) (comps : List PrereleaseVersion)
    (hne : comps ≠ []) (hwf : ∀ p ∈ comps, WFPre p) :
    parsePrerelease strict (joinDot (comps.map prString)) = .ok comps := by
  unfold parsePrerelease
  rw [if_neg ?_]
  · have := parsePrereleaseLoop_join strict comps [] hne hwf
    rwa [List.nil_append] at this
  · simp only [List.length_eq_zero]
    apply joinDot_ne_nil
    · simpa using hne
    · intro l hl
      rcases List.mem_map.mp hl with ⟨p, hp, rfl⟩
      exact prString_ne_nil (hwf p hp)

theorem parseBuildMetadata_join (comps : List (List Char)) (hne : comps ≠ [])
    (hwf : ∀ b ∈ comps, WFBuild b) : parseBuildMetadata (joinDot comps) = .ok comps := by
  unfold parseBuildMetadata
  rw [if_neg ?_]
  · have := parseBuildMetadataLoop_join comps [] hne hwf
    rwa [List.nil_append] at this
  · simp only [List.length_eq_zero]
    exact joinDot_ne_nil comps hne (fun l hl => (hwf l hl).1)

theorem parse_render_prefix (strict : Bool) (M m p : Nat) (hM : M < U64) (hm : m < U64)
    (hp : p < U64) (tail3 : List Char) (htw : tail3.takeWhile isDigitChar = []) :
    parse strict (natToChars M ++ ('.' :: (natToChars m ++ ('.' :: (natToChars p ++ tail3))))) =
      (if tail3.length = 0 then .ok { Major := M, Minor := m, Patch := p }
       else
         match parsePreReleaseAndBuildMetadata strict tail3 with
         | .error e => .error e
         | .ok (pr, bmm, leftover) =>
           if leftover.length ≠ 0 then .error .unexpectedCharacter
           else .ok { Major := M, Minor := m, Patch := p,
                      PreRelease := pr, BuildMetadata := bmm }) := by
  have h1 : ¬ (natToChars M ++
      ('.' :: (natToChars m ++ ('.' :: (natToChars p ++ tail3))))).length = 0 := by
    have h2 := List.length_pos.mpr (natToChars_ne_nil M)
    simp only [List.length_append, List.length_cons]
    omega
  have e1 := parseNumericIdentifier_natToChars M
    ('.' :: (natToChars m ++ ('.' :: (natToChars p ++ tail3)))) hM
    (by rw [List.takeWhile_cons, if_neg (by decide)])
  have e2 := parseNumericIdentifier_natToChars m ('.' :: (natToChars p ++ tail3)) hm
    (by rw [List.takeWhile_cons, if_neg (by decide)])
  have e3 := parseNumericIdentifier_natToChars p tail3 hp htw
  simp only [parse, if_neg h1, e1]
  simp [e2, e3]

theorem joinDot_prString_scanOk (comps : List PrereleaseVersion)
    (hwf : ∀ p ∈ comps, WFPre p) :
    ∀ c ∈ joinDot (comps.map prString), c ≠ '+' ∧ c.toNat ≤ 127 := by
  intro c hc
  rcases mem_joinDot _ hc with rfl | ⟨l, hl, hcl⟩
  · exact ⟨by decide, by decide⟩
  · rcases List.mem_map.mp hl with ⟨q, hq, rfl⟩
    have hall := List.all_eq_true.mp (prString_all_allowed (hwf q hq)) c hcl
    exact ⟨allowed_ne_plus hall, allowed_toNat_le hall⟩

theorem parsePreReleaseAndBuildMetadata_render (strict : Bool)
    (pre : List PrereleaseVersion) (bm : List (List Char))
    (hpre : ∀ p ∈ pre, WFPre p) (hbm : ∀ b ∈ bm, WFBuild b) (hne : pre ≠ [] ∨ bm ≠ []) :
    parsePreReleaseAndBuildMetadata strict
      ((if 0 < pre.length then '-' :: joinDot (pre.map prString) else []) ++
        (if 0 < bm.length then '+' :: joinDot bm else [])) = .ok (pre, bm, []) := by
  have hbmtail : ∀ pr2 : List PrereleaseVersion, (∀ p ∈ pr2, WFPre p) → pr2 = pre →
      buildTail pr2 (if 0 < bm.length then '+' :: joinDot bm else []) = .ok (pre, bm, []) := by
    intro pr2 _ heq
    subst heq
    cases bm with
    | nil => rfl
    | cons b0 bm' =>
      rw [if_pos (by simp)]
      unfold buildTail
      rw [if_pos ⟨by simp, rfl⟩]
      show (match parseBuildMetadata (joinDot (b0 :: bm')) with
        | Except.error e => Except.error e
        | Except.ok bm2 => Except.ok (pr2, bm2, ([] : List Char))) = _
      rw [parseBuildMetadata_join (b0 :: bm') (by simp) hbm]
  cases pre with
  | nil =>
    rcases hne with hcon | hbmne
    · cases hcon rfl
    · rw [if_neg (by simp)]
      rw [List.nil_append]
      unfold parsePreReleaseAndBuildMetadata
      cases bm with
      | nil => cases hbmne rfl
      | cons b0 bm' =>
        rw [if_neg ?_]
        · exact hbmtail [] (by simp) rfl
        · rw [if_pos (by simp)]
          simp
  | cons p0 pre' =>
    rw [if_pos (by simp)]
    unfold parsePreReleaseAndBuildMetadata
    rw [List.cons_append, if_pos ⟨by simp, rfl⟩]
    have hscan : scanPrereleaseSegment
        (joinDot ((p0 :: pre').map prString) ++ (if 0 < bm.length then '+' :: joinDot bm else [])) =
        .ok (joinDot ((p0 :: pre').map prString), if 0 < bm.length then '+' :: joinDot bm else []) := by
      apply scanPrereleaseSegment_walk _ _ (joinDot_prString_scanOk _ hpre)
      cases bm with
      | nil => left; rfl
      | cons b0 bm' => right; rw [if_pos (by simp)]; exact ⟨by simp, rfl⟩
    show (match scanPrereleaseSegment (joinDot ((p0 :: pre').map prString) ++
        (if 0 < bm.length then '+' :: joinDot bm else [])) with
      | Except.error e => Except.error e
      | Except.ok (seg, r) =>
        match parsePrerelease strict seg with
        | Except.error e => Except.error e
        | Except.ok pr => buildTail pr r) = _
    rw [hscan]
    show (match parsePrerelease strict (joinDot ((p0 :: pre').map prString)) with
      | Except.error e => Except.error e
      | Except.ok pr => buildTail pr (if 0 < bm.length then '+' :: joinDot bm else [])) = _
    rw [parsePrerelease_join strict (p0 :: pre') (by simp) hpre]
    exact hbmtail (p0 :: pre') hpre rfl

theorem parse_vString (strict : Bool) (v : Version) (hwf : WF v) :
    parse strict (vString v) = .ok v := by
  obtain ⟨hM, hm, hp, hpre, hbm⟩ := hwf
  have hv : vString v = natToChars v.Major ++ ('.' :: (natToChars v.Minor ++
      ('.' :: (natToChars v.Patch ++
        ((if 0 < v.PreRelease.length then '-' :: joinDot (v.PreRelease.map prString) else []) ++
          (if 0 < v.BuildMetadata.length then '+' :: joinDot v.BuildMetadata else [])))))) := by
    simp [vString, List.append_assoc]
  have htw : ((if 0 < v.PreRelease.length then '-' :: joinDot (v.PreRelease.map prString)
      else []) ++ (if 0 < v.BuildMetadata.length then '+' :: joinDot v.BuildMetadata
      else [])).takeWhile isDigitChar = [] := by
    cases hpr2 : v.PreRelease with
    | cons p0 pre' =>
      rw [if_pos (by simp), List.cons_append, List.takeWhile_cons, if_neg (by decide)]
    | nil =>
      rw [if_neg (by simp), List.nil_append]
      cases hbm2 : v.BuildMetadata with
      | nil => rw [if_neg (by simp)]; rfl
      | cons b0 bm' => rw [if_pos (by simp), List.takeWhile_cons, if_neg (by decide)]
  rw [hv, parse_render_prefix strict v.Major v.Minor v.Patch hM hm hp _ htw]
  by_cases hboth : v.PreRelease = [] ∧ v.BuildMetadata = []
  · rw [if_pos (by simp [hboth.1, hboth.2])]
    obtain ⟨bmv, prev, Mv, mv, pv⟩ := v
    simp only at hboth
    rw [hboth.1, hboth.2]
  · have hne : v.PreRelease ≠ [] ∨ v.BuildMetadata ≠ [] := by tauto
    have hlen : ¬ ((if 0 < v.PreRelease.length then '-' :: joinDot (v.PreRelease.map prString)
        else []) ++ (if 0 < v.BuildMetadata.length then '+' :: joinDot v.BuildMetadata
        else [])).length = 0 := by
      rcases hne with hne1 | hne1
      · cases hpr2 : v.PreRelease with
        | nil => cases hne1 hpr2
        | cons p0 pre' =>
          rw [if_pos (show 0 < (p0 :: pre').length by simp)]
          simp only [List.length_append, List.length_cons]
          omega
      · cases hbm2 : v.BuildMetadata with
        | nil => cases hne1 hbm2
        | cons b0 bm' =>
          rw [if_pos (show 0 < (b0 :: bm').length by simp)]
          simp only [List.length_append, List.length_cons]
          omega
    rw [if_neg hlen,
      parsePreReleaseAndBuildMetadata_render strict v.PreRelease v.BuildMetadata hpre hbm hne]
    show (if ([] : List Char).length ≠ 0 then Except.error SemverError.unexpectedCharacter
      else Except.ok (Version.mk v.BuildMetadata v.PreRelease v.Major v.Minor v.Patch)) =
        Except.ok v
    rw [if_neg (by simp)]

/-- Claim C3: round trip through rendering: every Version produced by a
successful parse re-parses from its String rendering to an equal Version
(same pre-release and build-metadata identifier sequences, in order), under
the same configuration. -/
theorem claim_C3 (strict : Bool) (s : List Char) (v : Version)
    (h : parse strict s = .ok v) : parse strict (vString v) = .ok v :=
  parse_vString strict v (parse_wf strict s v h)

/-- The concrete parsed version used by the round-trip witness. -/
def sampleVersion : Version :=
  { BuildMetadata := [['b', 'u', 'i', 'l', 'd'], ['1', '2', '3']],
    PreRelease := [{ partString := ['a', 'l', 'p', 'h', 'a'] },
                   { partNumeric := 1, isNumeric := true }],
    Major := 1, Minor := 2, Patch := 3 }

/-- Witness for C3 at a concrete parsed version. -/
theorem claim_C3_witness :
    parse true "1.2.3-alpha.1+build.123".toList = .ok sampleVersion ∧
    parse true (vString sampleVersion) = .ok sampleVersion :=
  ⟨by decide, claim_C3 true "1.2.3-alpha.1+build.123".toList sampleVersion (by decide)⟩

/-- Claim C8: each of the malformed inputs is rejected with an error (the
first error encountered on its parse path), under either configuration. -/
theorem claim_C8 :
    (∀ b : Bool,
      parse b "1.0".toList = .error .missingVersionElements ∧
      parse b "v1.0.0".toList = .error .invalidNumericIdentifier ∧
      parse b "1.0.0-alpha..1".toList = .error .emptyPrereleaseIdentifier ∧
      parse b "1.0.0+build+123".toList = .error .invalidCharacterInIdentifier ∧
      parse b "1.0.0-".toList = .error .emptyPrereleaseIdentifier) := by
  decide

end Semver
